import Mathlib

/-! # GitLab MCP server: the diff-to-line-number mapper

A shallow embedding of `parseDiffForLineNumbers` and of the mapper loop of
`getMrCommentableLines` from `src/server.js`, with the properties of the
specification proved about them.

Modelling conventions.

* A JavaScript string is a `List Char` (`Str`).  `split('\n')` is `List.splitOn '\n'`,
  `s.startsWith(p)` is `p.isPrefixOf s` and `s.substring(1)` is `s.drop 1`.
* The counters `currentNewLine` and `currentOldLine` are JavaScript numbers (`JsNum`).
  They only ever hold the result of `parseInt` on a string of decimal digits or of `++`,
  so they are non-negative integers that are doubles, or `Infinity`; `toDouble` rounds an
  integer to the nearest double as IEEE 754 does.  Below `2^53` both operations are exact;
  the statements that need exact arithmetic carry that bound as a hypothesis.
* The regular expression of the hunk header is embedded as a backtracking matcher
  built from one combinator per construct of the pattern.
-/

namespace GitlabMcp

/-- A JavaScript string, as its sequence of characters. -/
abbrev Str := List Char

/-- The method `s.startsWith(p)`. -/
def startsWith (s p : Str) : Bool := p.isPrefixOf s

/-- The call `s.split('\n')`. -/
def splitNL (s : Str) : List Str := s.splitOn '\n'

/-- The inverse of `splitNL`: the lines joined by `'\n'`. -/
def joinNL (ls : List Str) : Str := ['\n'].intercalate ls

/-! ## The hunk header pattern `/^@@ -(\d+),?\d* \+(\d+),?\d* @@/` -/

/-- A literal piece of the pattern: the input must start with `p`; the
continuation runs on what follows. -/
def reLit {α : Type} (p : Str) (k : Str → Option α) (s : Str) : Option α :=
  if p.isPrefixOf s then k (s.drop p.length) else none

/-- Greedy `\d*`: take a digit and go on if the rest of the pattern then matches,
otherwise stop here.  `acc` is the text taken so far; the continuation gets the
text taken and the remaining input. -/
def reDigitsStar {α : Type} (k : Str → Str → Option α) : Str → Str → Option α
  | acc, [] => k acc []
  | acc, c :: cs =>
    if c.isDigit then
      match reDigitsStar k (acc ++ [c]) cs with
      | some r => some r
      | none => k acc (c :: cs)
    else k acc (c :: cs)

/-- Greedy `\d+`: one digit, then greedy `\d*`. -/
def reDigitsPlus {α : Type} (k : Str → Str → Option α) : Str → Option α
  | [] => none
  | c :: cs => if c.isDigit then reDigitsStar k [c] cs else none

/-- Greedy `,?`: take a comma if there is one and the rest then matches,
otherwise take nothing. -/
def reOptComma {α : Type} (k : Str → Option α) : Str → Option α
  | [] => k []
  | c :: cs =>
    if c = ',' then
      match k cs with
      | some r => some r
      | none => k (c :: cs)
    else k (c :: cs)

/-- The call `diffLine.match(/^@@ -(\d+),?\d* \+(\d+),?\d* @@/)`: the two capture
groups when the line matches, `none` when `match` returns `null`. -/
def matchHeader (diffLine : Str) : Option (Str × Str) :=
  reLit ['@', '@', ' ', '-']
    (reDigitsPlus fun g1 =>
      reOptComma
        (reDigitsStar (fun _ =>
          reLit [' ', '+']
            (reDigitsPlus fun g2 =>
              reOptComma
                (reDigitsStar (fun _ =>
                  reLit [' ', '@', '@'] (fun _ => some (g1, g2))) []))) []))
    diffLine

/-! ## JavaScript numbers -/

/-- A JavaScript number, as far as the line counters can hold one: a non-negative
integer that is a double, or `Infinity`. -/
inductive JsNum where
  | fin (n : Nat)
  | infinity
  deriving DecidableEq, Repr

/-- The number of binary digits of `n`. -/
def bitLength (n : Nat) : Nat := (Nat.toDigits 2 n).length

/-- The Number value of the non-negative integer `n`: `n` itself below `2^53`;
from there on the nearest integer with a significand of 53 binary digits, a tie
going to the even significand, and `Infinity` when that is `2^1024` or more. -/
def toDouble (n : Nat) : JsNum :=
  if n < 2 ^ 53 then .fin n
  else
    let e := bitLength n - 53
    let q := n / 2 ^ e
    let r := n % 2 ^ e
    let half := 2 ^ (e - 1)
    let m := if half < r ∨ (r = half ∧ q % 2 = 1) then q + 1 else q
    if bitLength (m * 2 ^ e) ≤ 1024 then .fin (m * 2 ^ e) else .infinity

/-- The operator `++` on a counter: one is added and the sum rounded to a double. -/
def jsInc : JsNum → JsNum
  | .fin n => toDouble (n + 1)
  | .infinity => .infinity

/-- The integer that a string of decimal digits denotes. -/
def decimalValue (s : Str) : Nat :=
  s.foldl (fun n c => 10 * n + (c.toNat - 48)) 0

/-- The call `parseInt(s, 10)` on a string of decimal digits, which is all the
pattern's capture groups can hold: the Number value of the integer the digits
denote (rounded as Node.js rounds it, to the nearest double). -/
def parseInt10 (s : Str) : JsNum := toDouble (decimalValue s)

/-- The order of JavaScript numbers. -/
def JsNum.lt : JsNum → JsNum → Prop
  | .fin a, .fin b => a < b
  | .fin _, .infinity => True
  | .infinity, _ => False

instance : LT JsNum := ⟨JsNum.lt⟩

/-- The number plus one, in exact arithmetic. -/
def JsNum.succ : JsNum → JsNum
  | .fin n => .fin (n + 1)
  | .infinity => .infinity

/-! ## Records and the parsing loop -/

/-- The `type` field of a record: the string `'new'` or `'old'`. -/
inductive LineType where
  | new
  | old
  deriving DecidableEq, Repr

/-- An element of `validLines`. -/
structure LineRecord where
  type : LineType
  line_number : JsNum
  content : Str
  deriving DecidableEq, Repr

/-- The local variables of `parseDiffForLineNumbers`. -/
structure ParseState where
  validLines : List LineRecord
  currentNewLine : JsNum
  currentOldLine : JsNum
  deriving DecidableEq, Repr

/-- One iteration of the `for (const diffLine of lines)` loop. -/
def step (st : ParseState) (diffLine : Str) : ParseState :=
  if startsWith diffLine ['@', '@'] then
    match matchHeader diffLine with
    | some (g1, g2) =>
      { st with currentOldLine := parseInt10 g1, currentNewLine := parseInt10 g2 }
    | none => st
  else if startsWith diffLine ['+'] && !startsWith diffLine ['+', '+', '+'] then
    { st with
      validLines := st.validLines ++
        [{ type := .new, line_number := st.currentNewLine, content := diffLine.drop 1 }],
      currentNewLine := jsInc st.currentNewLine }
  else if startsWith diffLine ['-'] && !startsWith diffLine ['-', '-', '-'] then
    { st with
      validLines := st.validLines ++
        [{ type := .old, line_number := st.currentOldLine, content := diffLine.drop 1 }],
      currentOldLine := jsInc st.currentOldLine }
  else if startsWith diffLine [' '] then
    { st with
      currentNewLine := jsInc st.currentNewLine,
      currentOldLine := jsInc st.currentOldLine }
  else st

/-- The state before the first iteration. -/
def initState : ParseState :=
  { validLines := [], currentNewLine := .fin 0, currentOldLine := .fin 0 }

/-- The function `parseDiffForLineNumbers` on a string argument. -/
def parseDiffForLineNumbers (diffContent : Str) : List LineRecord :=
  ((splitNL diffContent).foldl step initState).validLines

/-! ## The mapper loop of `getMrCommentableLines` -/

/-- An exception raised by the JavaScript run time. -/
inductive JsError where
  | typeError
  deriving DecidableEq, Repr

/-- An element of `data.changes`, as far as the loop reads it.  The `diff` field
is `none` when it is `undefined` or `null`. -/
structure Change where
  new_path : Str
  diff : Option Str
  deriving DecidableEq, Repr

/-- An element of `commentableLinesResult`. -/
structure FileResult where
  file : Str
  commentable_lines : List LineRecord
  deriving DecidableEq, Repr

/-- The call `parseDiffForLineNumbers(diffContent)` of the loop body: on `undefined`
or `null` the first statement, `diffContent.split`, raises a `TypeError`. -/
def callParseDiff : Option Str → Except JsError (List LineRecord)
  | none => .error .typeError
  | some diffContent => .ok (parseDiffForLineNumbers diffContent)

/-- The loop `for (const change of ...)`, with `commentableLinesResult` as accumulator. -/
def mapperLoop : List Change → List FileResult → Except JsError (List FileResult)
  | [], commentableLinesResult => .ok commentableLinesResult
  | change :: rest, commentableLinesResult =>
    match callParseDiff change.diff with
    | .error e => .error e
    | .ok validLines =>
      mapperLoop rest
        (commentableLinesResult ++
          [{ file := change.new_path, commentable_lines := validLines }])

/-- The part of `getMrCommentableLines` after the HTTP response has arrived;
`changes` is `data.changes`, `none` when it is missing (`data.changes || []`). -/
def getMrCommentableLines (changes : Option (List Change)) :
    Except JsError (List FileResult) :=
  mapperLoop (changes.getD []) []

/-! ## The inline comment of `addMrInlineComment` -/

/-- The `diff_refs` object of a merge request. -/
structure DiffRefs where
  base_sha : Str
  start_sha : Str
  head_sha : Str
  deriving DecidableEq, Repr

/-- The value `fetchMrDetails` resolves to, as far as `addMrInlineComment` reads
it.  The field `diff_refs` is `none` when it is missing (`!diffRefs`). -/
structure MrDetails where
  diff_refs : Option DiffRefs
  deriving DecidableEq, Repr

/-- The `position` object of an inline comment.  A key that is never assigned
is `none`. -/
structure Position where
  base_sha : Str
  start_sha : Str
  head_sha : Str
  position_type : Str
  new_path : Str
  new_line : Option Int
  old_line : Option Int
  old_path : Option Str
  deriving DecidableEq, Repr

/-- One call `axios.post(url, data, ...)`, with `data = { body, position }`. -/
structure PostCall where
  url : Str
  body : Str
  position : Position
  deriving DecidableEq, Repr

/-- What a run of `addMrInlineComment` does after the merge request details have
arrived: the POST requests it sends, in order, and the value it returns or the
message of the error it throws. -/
structure InlineCommentRun where
  posted : List PostCall
  result : Except Str Str

/-- The address of the discussions of a merge request; `mrIid` is the text the
template string gives for the argument `mrIid`. -/
def discussionsUrl (gitlabUrl encodedPath : Str) (mrIid : Str) : Str :=
  gitlabUrl ++ "/api/v4/projects/".toList ++ encodedPath ++ "/merge_requests/".toList ++
    mrIid ++ "/discussions".toList

/-- The function `addMrInlineComment`.  `gitlabUrl` and `encodedPath` are
`GITLAB_URL` and the encoded project path, `mrDetails` is what `fetchMrDetails`
resolved to, `respond` gives `response.data` for a POST request, `mrIid` is the
text the template string gives for the argument `mrIid`, and `lineType` is `none`
when the argument is left out (the default `'new'` then applies). -/
def addMrInlineComment (gitlabUrl encodedPath : Str) (mrDetails : MrDetails)
    (respond : PostCall → Str) (mrIid : Str) (filePath : Str) (lineNumber : Int)
    (commentBody : Str) (lineType : Option Str) : InlineCommentRun :=
  let lineType := lineType.getD "new".toList
  match mrDetails.diff_refs with
  | none =>
    { posted := [], result := .error "Could not get diff_refs from merge request".toList }
  | some diffRefs =>
    let position : Position :=
      { base_sha := diffRefs.base_sha,
        start_sha := diffRefs.start_sha,
        head_sha := diffRefs.head_sha,
        position_type := "text".toList,
        new_path := filePath,
        new_line := none,
        old_line := none,
        old_path := none }
    let position :=
      if lineType = "new".toList then
        { position with new_line := some lineNumber }
      else
        { position with old_line := some lineNumber, old_path := some filePath }
    let data : PostCall :=
      { url := discussionsUrl gitlabUrl encodedPath mrIid,
        body := commentBody,
        position := position }
    { posted := [data], result := .ok (respond data) }

/-! ## Vocabulary for the statements -/

/-- An added line: begins with `+` but not with `+++`. -/
def isAdded (l : Str) : Bool := startsWith l ['+'] && !startsWith l ['+', '+', '+']

/-- A removed line: begins with `-` but not with `---`. -/
def isRemoved (l : Str) : Bool := startsWith l ['-'] && !startsWith l ['-', '-', '-']

/-- A context line: begins with a space. -/
def isContext (l : Str) : Bool := startsWith l [' ']

/-- The old and new counter that a line matching the hunk header pattern sets. -/
def hunkStart (l : Str) : Option (JsNum × JsNum) :=
  (matchHeader l).map fun g => (parseInt10 g.1, parseInt10 g.2)

/-- The old and new start written in a line that matches the hunk header pattern,
as integers. -/
def hunkStartVal (l : Str) : Option (Nat × Nat) :=
  (matchHeader l).map fun g => (decimalValue g.1, decimalValue g.2)

/-- The number of lines of `ls` for which the loop pushes a record. -/
def emitCount (ls : List Str) : Nat := ls.countP fun l => isAdded l || isRemoved l

/-- The records pushed for one line when the counters are `n` (new) and `o` (old). -/
def lineRecords (n o : JsNum) (l : Str) : List LineRecord :=
  if isAdded l then [{ type := .new, line_number := n, content := l.drop 1 }]
  else if isRemoved l then [{ type := .old, line_number := o, content := l.drop 1 }]
  else []

/-- The new-side counter after one line. -/
def nextNew (n : JsNum) (l : Str) : JsNum :=
  match hunkStart l with
  | some s => s.2
  | none => if isAdded l || isContext l then jsInc n else n

/-- The old-side counter after one line. -/
def nextOld (o : JsNum) (l : Str) : JsNum :=
  match hunkStart l with
  | some s => s.1
  | none => if isRemoved l || isContext l then jsInc o else o

/-- The new-side counter after one line, in exact arithmetic. -/
def exactNew (n : Nat) (l : Str) : Nat :=
  match hunkStartVal l with
  | some s => s.2
  | none => if isAdded l || isContext l then n + 1 else n

/-- The old-side counter after one line, in exact arithmetic. -/
def exactOld (o : Nat) (l : Str) : Nat :=
  match hunkStartVal l with
  | some s => s.1
  | none => if isRemoved l || isContext l then o + 1 else o

/-- The records pushed for the lines `ls` when the counters start at `n` and `o`. -/
def emitFrom : JsNum → JsNum → List Str → List LineRecord
  | _, _, [] => []
  | n, o, l :: ls => lineRecords n o l ++ emitFrom (nextNew n l) (nextOld o l) ls

/-- The most recent matching hunk header among the lines `pre`. -/
def lastHeader (pre : List Str) : Option (Nat × Nat) :=
  (pre.filterMap hunkStartVal).getLast?

/-- The lines of `pre` after its most recent matching hunk header (all of `pre`
when it has none). -/
def afterLastHeader (pre : List Str) : List Str :=
  (pre.reverse.takeWhile fun l => (hunkStartVal l).isNone).reverse

/-- The new-side line number the specification gives to a line that comes after
the lines `pre`: the new start of the most recent header, plus the added and
context lines since. -/
def specNew (pre : List Str) : Nat :=
  ((lastHeader pre).map Prod.snd).getD 0 +
    (afterLastHeader pre).countP fun l => isAdded l || isContext l

/-- The old-side line number the specification gives to a line that comes after
the lines `pre`. -/
def specOld (pre : List Str) : Nat :=
  ((lastHeader pre).map Prod.fst).getD 0 +
    (afterLastHeader pre).countP fun l => isRemoved l || isContext l

/-- The largest start value of a matching hunk header among the lines `ls`. -/
def headerBound : List Str → Nat
  | [] => 0
  | l :: ls =>
    match hunkStartVal l with
    | some s => max (max s.1 s.2) (headerBound ls)
    | none => headerBound ls

/-- The record with its line number raised by exactly one. -/
def bump (r : LineRecord) : LineRecord := { r with line_number := r.line_number.succ }

/-- The marker character of a record type. -/
def marker : LineType → Char
  | .new => '+'
  | .old => '-'

/-- The type and content the specification reads off one line of the diff, if any. -/
def specPair (l : Str) : Option (LineType × Str) :=
  if startsWith l ['+'] && !startsWith l ['+', '+', '+'] then some (.new, l.drop 1)
  else if startsWith l ['-'] && !startsWith l ['-', '-', '-'] then some (.old, l.drop 1)
  else none

/-- The optional `,count` part of a hunk header. -/
def countPart : Option Str → Str
  | none => []
  | some m => ',' :: m

/-- The header line `@@ -a,m +b,n @@t`, either `,count` part possibly omitted. -/
def headerLine (a : Str) (m : Option Str) (b : Str) (n : Option Str) (t : Str) : Str :=
  ['@', '@', ' ', '-'] ++ a ++ countPart m ++ [' ', '+'] ++ b ++ countPart n ++
    [' ', '@', '@'] ++ t

/-! ## Basic facts about lines -/

theorem startsWith_one (l : Str) (c : Char) :
    startsWith l [c] = true ↔ ∃ t, l = c :: t := by
  cases l with
  | nil => simp [startsWith, List.isPrefixOf]
  | cons x t =>
    simp only [startsWith, List.isPrefixOf, List.cons.injEq, Bool.and_true, beq_iff_eq]
    constructor
    · intro h; exact ⟨t, by subst h; exact ⟨rfl, rfl⟩⟩
    · rintro ⟨t', h, -⟩; exact h.symm

theorem not_startsWith_of_head {l p : Str} {c x : Char} (hl : startsWith l [c] = true)
    (hx : x ≠ c) (t : Str) (hp : p = x :: t) : startsWith l p = false := by
  obtain ⟨t', rfl⟩ := (startsWith_one l c).1 hl
  subst hp
  simp [startsWith, List.isPrefixOf, hx]

theorem startsWith_at {l : Str} (h : startsWith l ['@', '@'] = true) :
    ∃ t, l = '@' :: '@' :: t := by
  match l with
  | [] => simp [startsWith, List.isPrefixOf] at h
  | [_] => simp [startsWith, List.isPrefixOf] at h
  | a :: b :: t =>
    simp only [startsWith, List.isPrefixOf, Bool.and_eq_true, beq_iff_eq, Bool.and_true] at h
    exact ⟨t, by rw [← h.1, ← h.2]⟩

theorem matchHeader_startsWith {l : Str} {g : Str × Str} (h : matchHeader l = some g) :
    startsWith l ['@', '@'] = true := by
  unfold matchHeader reLit at h
  split at h
  · rename_i hp
    match l, hp with
    | a :: b :: _, hp =>
      simp only [List.isPrefixOf, Bool.and_eq_true, beq_iff_eq] at hp
      simp only [startsWith, List.isPrefixOf, Bool.and_eq_true, beq_iff_eq, Bool.and_true]
      exact ⟨hp.1, hp.2.1⟩
  · exact absurd h (by simp)

theorem hunkStart_eq_none_of_not_startsWith {l : Str}
    (h : startsWith l ['@', '@'] = false) : hunkStart l = none := by
  unfold hunkStart
  cases hm : matchHeader l with
  | none => rfl
  | some g => rw [matchHeader_startsWith hm] at h; exact absurd h (by simp)

theorem isAdded_false_of_at {l : Str} (h : startsWith l ['@', '@'] = true) :
    isAdded l = false := by
  obtain ⟨t, rfl⟩ := startsWith_at h
  simp [isAdded, startsWith, List.isPrefixOf]

theorem isRemoved_false_of_at {l : Str} (h : startsWith l ['@', '@'] = true) :
    isRemoved l = false := by
  obtain ⟨t, rfl⟩ := startsWith_at h
  simp [isRemoved, startsWith, List.isPrefixOf]

theorem isContext_false_of_at {l : Str} (h : startsWith l ['@', '@'] = true) :
    isContext l = false := by
  obtain ⟨t, rfl⟩ := startsWith_at h
  simp [isContext, startsWith, List.isPrefixOf]

theorem isAdded_cons {l : Str} (h : isAdded l = true) : l = '+' :: l.drop 1 := by
  simp only [isAdded, Bool.and_eq_true] at h
  obtain ⟨t, rfl⟩ := (startsWith_one l '+').1 h.1
  rfl

theorem isRemoved_cons {l : Str} (h : isRemoved l = true) : l = '-' :: l.drop 1 := by
  simp only [isRemoved, Bool.and_eq_true] at h
  obtain ⟨t, rfl⟩ := (startsWith_one l '-').1 h.1
  rfl

theorem isRemoved_false_of_isAdded {l : Str} (h : isAdded l = true) : isRemoved l = false := by
  rw [isAdded_cons h]; simp [isRemoved, startsWith, List.isPrefixOf]

theorem isContext_false_of_isAdded {l : Str} (h : isAdded l = true) : isContext l = false := by
  rw [isAdded_cons h]; simp [isContext, startsWith, List.isPrefixOf]

theorem isContext_false_of_isRemoved {l : Str} (h : isRemoved l = true) :
    isContext l = false := by
  rw [isRemoved_cons h]; simp [isContext, startsWith, List.isPrefixOf]

theorem hunkStart_eq_none_of_isAdded {l : Str} (h : isAdded l = true) : hunkStart l = none := by
  apply hunkStart_eq_none_of_not_startsWith
  rw [isAdded_cons h]; simp [startsWith, List.isPrefixOf]

theorem hunkStart_eq_none_of_isRemoved {l : Str} (h : isRemoved l = true) :
    hunkStart l = none := by
  apply hunkStart_eq_none_of_not_startsWith
  rw [isRemoved_cons h]; simp [startsWith, List.isPrefixOf]

theorem hunkStart_eq_none_of_isContext {l : Str} (h : isContext l = true) :
    hunkStart l = none := by
  apply hunkStart_eq_none_of_not_startsWith
  obtain ⟨t, rfl⟩ := (startsWith_one l ' ').1 h
  simp [startsWith, List.isPrefixOf]

/-- One iteration of the loop, read through the vocabulary above. -/
theorem step_eq (st : ParseState) (l : Str) :
    step st l =
      { validLines := st.validLines ++ lineRecords st.currentNewLine st.currentOldLine l,
        currentNewLine := nextNew st.currentNewLine l,
        currentOldLine := nextOld st.currentOldLine l } := by
  by_cases hat : startsWith l ['@', '@'] = true
  · have h1 := isAdded_false_of_at hat
    have h2 := isRemoved_false_of_at hat
    have h3 := isContext_false_of_at hat
    cases hm : matchHeader l with
    | none => simp [step, hat, hm, lineRecords, nextNew, nextOld, hunkStart, h1, h2, h3]
    | some g =>
      obtain ⟨g1, g2⟩ := g
      simp [step, hat, hm, lineRecords, nextNew, nextOld, hunkStart, h1, h2]
  · have hat' : startsWith l ['@', '@'] = false := by simpa using hat
    have hh := hunkStart_eq_none_of_not_startsWith hat'
    by_cases ha : isAdded l = true
    · have ha' := ha
      simp only [isAdded] at ha'
      simp [step, hat', ha', lineRecords, nextNew, nextOld, hh, ha,
        isRemoved_false_of_isAdded ha, isContext_false_of_isAdded ha]
    · have ha0 : isAdded l = false := by simpa using ha
      have ha' := ha0
      simp only [isAdded] at ha'
      by_cases hr : isRemoved l = true
      · have hr' := hr
        simp only [isRemoved] at hr'
        simp [step, hat', ha', hr', lineRecords, nextNew, nextOld, hh, ha0, hr,
          isContext_false_of_isRemoved hr]
      · have hr0 : isRemoved l = false := by simpa using hr
        have hr' := hr0
        simp only [isRemoved] at hr'
        by_cases hc : isContext l = true
        · have hc' := hc
          simp only [isContext] at hc'
          simp [step, hat', ha', hr', hc', lineRecords, nextNew, nextOld, hh, ha0, hr0, hc]
        · have hc0 : isContext l = false := by simpa using hc
          have hc' := hc0
          simp only [isContext] at hc'
          simp [step, hat', ha', hr', hc', lineRecords, nextNew, nextOld, hh, ha0, hr0, hc0]

theorem foldl_step (ls : List Str) (st : ParseState) :
    ls.foldl step st =
      { validLines := st.validLines ++ emitFrom st.currentNewLine st.currentOldLine ls,
        currentNewLine := ls.foldl nextNew st.currentNewLine,
        currentOldLine := ls.foldl nextOld st.currentOldLine } := by
  induction ls generalizing st with
  | nil => simp [emitFrom]
  | cons l ls ih => rw [List.foldl_cons, ih, step_eq]; simp [emitFrom]

/-- The parser is the emission function started with both counters at `0`. -/
theorem parse_eq (d : Str) : parseDiffForLineNumbers d = emitFrom (.fin 0) (.fin 0) (splitNL d) := by
  simp [parseDiffForLineNumbers, foldl_step, initState]

theorem emitFrom_append (xs ys : List Str) (n o : JsNum) :
    emitFrom n o (xs ++ ys) =
      emitFrom n o xs ++ emitFrom (xs.foldl nextNew n) (xs.foldl nextOld o) ys := by
  induction xs generalizing n o with
  | nil => simp [emitFrom]
  | cons l xs ih => simp [emitFrom, ih]

theorem length_lineRecords (n o : JsNum) (l : Str) :
    (lineRecords n o l).length = if isAdded l || isRemoved l then 1 else 0 := by
  unfold lineRecords
  by_cases ha : isAdded l = true
  · simp [ha]
  · by_cases hr : isRemoved l = true
    · simp [ha, hr]
    · simp [ha, hr]

theorem length_emitFrom (ls : List Str) (n o : JsNum) :
    (emitFrom n o ls).length = emitCount ls := by
  induction ls generalizing n o with
  | nil => simp [emitFrom, emitCount]
  | cons l ls ih =>
    simp only [emitFrom, List.length_append, ih, length_lineRecords, emitCount,
      List.countP_cons]
    omega

/-! ## Splitting and joining lines -/

theorem splitNL_ne_nil (d : Str) : splitNL d ≠ [] := List.splitOnP_ne_nil _ _

theorem not_mem_of_mem_splitNL (d : Str) : ∀ l ∈ splitNL d, '\n' ∉ l := by
  induction d with
  | nil => intro l hl; simp [splitNL] at hl; simp [hl]
  | cons c d ih =>
    intro l hl
    simp only [splitNL, List.splitOn, List.splitOnP_cons] at hl ih
    by_cases hc : c = '\n'
    · simp only [hc, beq_self_eq_true, if_true, List.mem_cons] at hl
      rcases hl with rfl | hl
      · simp
      · exact ih l hl
    · have hc' : (c == '\n') = false := by simpa using hc
      simp only [hc', Bool.false_eq_true, if_false] at hl
      cases hs : List.splitOnP (fun x => x == '\n') d with
      | nil => rw [hs] at hl; simp at hl
      | cons hd tl =>
        rw [hs] at hl ih
        simp only [List.modifyHead_cons, List.mem_cons] at hl
        rcases hl with rfl | hl
        · intro hmem
          rcases List.mem_cons.1 hmem with h | h
          · exact hc h.symm
          · exact ih hd (List.mem_cons_self _ _) h
        · exact ih l (List.mem_cons_of_mem _ hl)

theorem splitNL_joinNL (ls : List Str) (hls : ls ≠ []) (h : ∀ l ∈ ls, '\n' ∉ l) :
    splitNL (joinNL ls) = ls :=
  List.splitOn_intercalate ls '\n' h hls

theorem joinNL_splitNL (d : Str) : joinNL (splitNL d) = d :=
  List.intercalate_splitOn d '\n'

theorem lineRecords_nil (n o : JsNum) : lineRecords n o [] = [] := by
  simp [lineRecords, isAdded, isRemoved, startsWith, List.isPrefixOf]

/-- The parser on a text given by its lines. -/
theorem parse_joinNL (ls : List Str) (h : ∀ l ∈ ls, '\n' ∉ l) :
    parseDiffForLineNumbers (joinNL ls) = emitFrom (.fin 0) (.fin 0) ls := by
  rw [parse_eq]
  by_cases hls : ls = []
  · subst hls
    have : splitNL (joinNL []) = [[]] := by simp [joinNL, splitNL, List.intercalate]
    rw [this]; simp [emitFrom, lineRecords_nil]
  · rw [splitNL_joinNL ls hls h]

/-! ## The counters over a run of lines -/

theorem hunkStartVal_eq_none_iff (l : Str) : hunkStartVal l = none ↔ hunkStart l = none := by
  simp [hunkStart, hunkStartVal]

theorem hunkStart_eq_map (l : Str) :
    hunkStart l = (hunkStartVal l).map fun s => (toDouble s.1, toDouble s.2) := by
  unfold hunkStart hunkStartVal
  cases matchHeader l with
  | none => rfl
  | some g => rfl

theorem foldl_exactNew_noHeader (seg : List Str) (n : Nat)
    (h : ∀ x ∈ seg, hunkStart x = none) :
    seg.foldl exactNew n = n + seg.countP fun l => isAdded l || isContext l := by
  induction seg generalizing n with
  | nil => simp
  | cons l seg ih =>
    have hl := (hunkStartVal_eq_none_iff l).2 (h l (List.mem_cons_self _ _))
    rw [List.foldl_cons, ih _ (fun x hx => h x (List.mem_cons_of_mem _ hx)), List.countP_cons]
    simp only [exactNew, hl]
    split <;> omega

theorem foldl_exactOld_noHeader (seg : List Str) (o : Nat)
    (h : ∀ x ∈ seg, hunkStart x = none) :
    seg.foldl exactOld o = o + seg.countP fun l => isRemoved l || isContext l := by
  induction seg generalizing o with
  | nil => simp
  | cons l seg ih =>
    have hl := (hunkStartVal_eq_none_iff l).2 (h l (List.mem_cons_self _ _))
    rw [List.foldl_cons, ih _ (fun x hx => h x (List.mem_cons_of_mem _ hx)), List.countP_cons]
    simp only [exactOld, hl]
    split <;> omega

theorem lastHeader_append_one (pre : List Str) (l : Str) :
    lastHeader (pre ++ [l]) =
      match hunkStartVal l with
      | some s => some s
      | none => lastHeader pre := by
  unfold lastHeader
  rw [List.filterMap_append]
  cases hl : hunkStartVal l with
  | none => simp [List.filterMap, hl]
  | some s => simp [List.filterMap, hl]

theorem afterLastHeader_append_one (pre : List Str) (l : Str) :
    afterLastHeader (pre ++ [l]) =
      match hunkStartVal l with
      | some _ => []
      | none => afterLastHeader pre ++ [l] := by
  unfold afterLastHeader
  rw [List.reverse_append]
  cases hl : hunkStartVal l with
  | none => simp [List.takeWhile, hl]
  | some s => simp [List.takeWhile, hl]

/-- In exact arithmetic the new-side counter after the lines `pre` is the number
the specification describes. -/
theorem foldl_exactNew_eq_specNew (pre : List Str) : pre.foldl exactNew 0 = specNew pre := by
  induction pre using List.reverseRecOn with
  | nil => simp [specNew, lastHeader, afterLastHeader]
  | append_singleton pre l ih =>
    rw [List.foldl_append, List.foldl_cons, List.foldl_nil, ih]
    unfold specNew
    rw [lastHeader_append_one, afterLastHeader_append_one]
    cases hl : hunkStartVal l with
    | some s => simp [exactNew, hl]
    | none =>
      simp only [exactNew, hl, List.countP_append, List.countP_cons, List.countP_nil]
      split <;> omega

/-- In exact arithmetic the old-side counter after the lines `pre` is the number
the specification describes. -/
theorem foldl_exactOld_eq_specOld (pre : List Str) : pre.foldl exactOld 0 = specOld pre := by
  induction pre using List.reverseRecOn with
  | nil => simp [specOld, lastHeader, afterLastHeader]
  | append_singleton pre l ih =>
    rw [List.foldl_append, List.foldl_cons, List.foldl_nil, ih]
    unfold specOld
    rw [lastHeader_append_one, afterLastHeader_append_one]
    cases hl : hunkStartVal l with
    | some s => simp [exactOld, hl]
    | none =>
      simp only [exactOld, hl, List.countP_append, List.countP_cons, List.countP_nil]
      split <;> omega

/-- The text splits as lines `pre`, then `rest`: so does the output. -/
theorem parse_split (d : Str) (pre rest : List Str) (h : splitNL d = pre ++ rest) :
    parseDiffForLineNumbers d =
      emitFrom (.fin 0) (.fin 0) pre ++
        emitFrom (pre.foldl nextNew (.fin 0)) (pre.foldl nextOld (.fin 0)) rest := by
  rw [parse_eq, h, emitFrom_append]

theorem getElem?_append_length {α : Type} (xs ys : List α) (k : Nat) (hk : xs.length = k) :
    (xs ++ ys)[k]? = ys[0]? := by
  subst hk
  rw [List.getElem?_append_right (Nat.le_refl _)]
  simp

/-! ## Where a record comes from -/

theorem lineRecords_of_isAdded {l : Str} (h : isAdded l = true) (n o : JsNum) :
    lineRecords n o l = [{ type := .new, line_number := n, content := l.drop 1 }] := by
  simp [lineRecords, h]

theorem lineRecords_of_isRemoved {l : Str} (h : isRemoved l = true) (n o : JsNum) :
    lineRecords n o l = [{ type := .old, line_number := o, content := l.drop 1 }] := by
  have ha : isAdded l = false := by
    cases hh : isAdded l with
    | false => rfl
    | true => rw [isRemoved_false_of_isAdded hh] at h; exact absurd h (by simp)
  simp [lineRecords, h, ha]

theorem emitCount_append (xs ys : List Str) :
    emitCount (xs ++ ys) = emitCount xs + emitCount ys := by
  simp [emitCount, List.countP_append]

/-- The record of an added line after `pre` sits at position `emitCount pre`. -/
theorem getElem?_emitFrom_added (pre : List Str) {l : Str} (hl : isAdded l = true)
    (post : List Str) (n o : JsNum) :
    (emitFrom n o (pre ++ l :: post))[emitCount pre]? =
      some { type := .new, line_number := pre.foldl nextNew n, content := l.drop 1 } := by
  rw [emitFrom_append, getElem?_append_length _ _ _ (length_emitFrom pre n o), emitFrom,
    lineRecords_of_isAdded hl]
  simp

/-- The record of a removed line after `pre` sits at position `emitCount pre`. -/
theorem getElem?_emitFrom_removed (pre : List Str) {l : Str} (hl : isRemoved l = true)
    (post : List Str) (n o : JsNum) :
    (emitFrom n o (pre ++ l :: post))[emitCount pre]? =
      some { type := .old, line_number := pre.foldl nextOld o, content := l.drop 1 } := by
  rw [emitFrom_append, getElem?_append_length _ _ _ (length_emitFrom pre n o), emitFrom,
    lineRecords_of_isRemoved hl]
  simp

/-- Every record comes from one line of the input, with the counters as they
are after the lines before it. -/
theorem mem_emitFrom {r : LineRecord} {ls : List Str} {n o : JsNum}
    (h : r ∈ emitFrom n o ls) :
    ∃ pre l post, ls = pre ++ l :: post ∧
      r ∈ lineRecords (pre.foldl nextNew n) (pre.foldl nextOld o) l := by
  induction ls generalizing n o with
  | nil => simp [emitFrom] at h
  | cons x xs ih =>
    simp only [emitFrom, List.mem_append] at h
    rcases h with h | h
    · exact ⟨[], x, xs, rfl, h⟩
    · obtain ⟨pre, l, post, rfl, hr⟩ := ih h
      exact ⟨x :: pre, l, post, rfl, hr⟩

theorem mem_lineRecords {r : LineRecord} {l : Str} {n o : JsNum} (h : r ∈ lineRecords n o l) :
    (isAdded l = true ∧ r = { type := .new, line_number := n, content := l.drop 1 }) ∨
    (isRemoved l = true ∧ r = { type := .old, line_number := o, content := l.drop 1 }) := by
  unfold lineRecords at h
  by_cases ha : isAdded l = true
  · simp only [ha, if_true, List.mem_singleton] at h
    exact Or.inl ⟨ha, h⟩
  · by_cases hr : isRemoved l = true
    · simp only [ha, hr, if_true, List.mem_singleton, Bool.false_eq_true, if_false] at h
      exact Or.inr ⟨hr, h⟩
    · simp [ha, hr] at h

/-! ## The size of the counters -/

theorem foldl_exactNew_le (ls : List Str) (n : Nat) :
    ls.foldl exactNew n ≤ max n (headerBound ls) + ls.length := by
  induction ls generalizing n with
  | nil => simp
  | cons l ls ih =>
    have := ih (exactNew n l)
    rw [List.foldl_cons, List.length_cons]
    cases hl : hunkStartVal l with
    | some s =>
      simp only [exactNew, hl, headerBound] at this ⊢
      omega
    | none =>
      by_cases hc : (isAdded l || isContext l) = true
      · simp only [exactNew, hl, headerBound, hc, if_true] at this ⊢
        omega
      · have hc' : (isAdded l || isContext l) = false := by simpa using hc
        simp only [exactNew, hl, headerBound, hc', Bool.false_eq_true, if_false] at this ⊢
        omega

theorem foldl_exactOld_le (ls : List Str) (o : Nat) :
    ls.foldl exactOld o ≤ max o (headerBound ls) + ls.length := by
  induction ls generalizing o with
  | nil => simp
  | cons l ls ih =>
    have := ih (exactOld o l)
    rw [List.foldl_cons, List.length_cons]
    cases hl : hunkStartVal l with
    | some s =>
      simp only [exactOld, hl, headerBound] at this ⊢
      omega
    | none =>
      by_cases hc : (isRemoved l || isContext l) = true
      · simp only [exactOld, hl, headerBound, hc, if_true] at this ⊢
        omega
      · have hc' : (isRemoved l || isContext l) = false := by simpa using hc
        simp only [exactOld, hl, headerBound, hc', Bool.false_eq_true, if_false] at this ⊢
        omega

theorem headerBound_append_le (xs ys : List Str) :
    headerBound xs ≤ headerBound (xs ++ ys) := by
  induction xs with
  | nil => simp [headerBound]
  | cons l xs ih =>
    simp only [List.cons_append, headerBound, List.append_eq]
    cases hunkStartVal l with
    | some s => simp only; omega
    | none => exact ih

theorem headerBound_append (xs ys : List Str) :
    headerBound (xs ++ ys) = max (headerBound xs) (headerBound ys) := by
  induction xs with
  | nil => simp [headerBound]
  | cons l xs ih =>
    simp only [List.cons_append, headerBound, List.append_eq]
    cases hunkStartVal l with
    | some s => simp only; omega
    | none => exact ih

theorem headerBound_eq_zero {seg : List Str} (h : ∀ x ∈ seg, hunkStart x = none) :
    headerBound seg = 0 := by
  induction seg with
  | nil => rfl
  | cons l seg ih =>
    have hl := (hunkStartVal_eq_none_iff l).2 (h l (List.mem_cons_self _ _))
    simp only [headerBound, hl]
    exact ih (fun x hx => h x (List.mem_cons_of_mem _ hx))

/-! ## Exact arithmetic below `2^53` -/

theorem toDouble_of_lt {n : Nat} (h : n < 2 ^ 53) : toDouble n = .fin n := by
  unfold toDouble
  exact if_pos h

theorem jsInc_fin {n : Nat} (h : n + 1 < 2 ^ 53) : jsInc (.fin n) = .fin (n + 1) := by
  simp [jsInc, toDouble_of_lt h]

theorem nextNew_fin (l : Str) (n : Nat) (h : max n (headerBound [l]) + 1 < 2 ^ 53) :
    nextNew (.fin n) l = .fin (exactNew n l) := by
  unfold nextNew exactNew
  rw [hunkStart_eq_map]
  cases hl : hunkStartVal l with
  | some s =>
    simp only [headerBound, hl] at h
    simp only [Option.map_some']
    exact toDouble_of_lt (by omega)
  | none =>
    simp only [Option.map_none']
    split
    · exact jsInc_fin (by omega)
    · rfl

theorem nextOld_fin (l : Str) (o : Nat) (h : max o (headerBound [l]) + 1 < 2 ^ 53) :
    nextOld (.fin o) l = .fin (exactOld o l) := by
  unfold nextOld exactOld
  rw [hunkStart_eq_map]
  cases hl : hunkStartVal l with
  | some s =>
    simp only [headerBound, hl] at h
    simp only [Option.map_some']
    exact toDouble_of_lt (by omega)
  | none =>
    simp only [Option.map_none']
    split
    · exact jsInc_fin (by omega)
    · rfl

theorem exactNew_le (l : Str) (n : Nat) : exactNew n l ≤ max n (headerBound [l]) + 1 := by
  have := foldl_exactNew_le [l] n
  simpa using this

theorem exactOld_le (l : Str) (o : Nat) : exactOld o l ≤ max o (headerBound [l]) + 1 := by
  have := foldl_exactOld_le [l] o
  simpa using this

/-- While the largest header value plus the number of lines stays below `2^53`,
the new-side counter of the program is the one of exact arithmetic. -/
theorem foldl_nextNew_fin (ls : List Str) (n : Nat)
    (h : max n (headerBound ls) + ls.length < 2 ^ 53) :
    ls.foldl nextNew (.fin n) = .fin (ls.foldl exactNew n) := by
  induction ls generalizing n with
  | nil => rfl
  | cons l ls ih =>
    have hb : headerBound (l :: ls) = max (headerBound [l]) (headerBound ls) :=
      headerBound_append [l] ls
    have hle := exactNew_le l n
    rw [hb, List.length_cons] at h
    rw [List.foldl_cons, List.foldl_cons, nextNew_fin l n (by omega)]
    exact ih _ (by omega)

/-- While the largest header value plus the number of lines stays below `2^53`,
the old-side counter of the program is the one of exact arithmetic. -/
theorem foldl_nextOld_fin (ls : List Str) (o : Nat)
    (h : max o (headerBound ls) + ls.length < 2 ^ 53) :
    ls.foldl nextOld (.fin o) = .fin (ls.foldl exactOld o) := by
  induction ls generalizing o with
  | nil => rfl
  | cons l ls ih =>
    have hb : headerBound (l :: ls) = max (headerBound [l]) (headerBound ls) :=
      headerBound_append [l] ls
    have hle := exactOld_le l o
    rw [hb, List.length_cons] at h
    rw [List.foldl_cons, List.foldl_cons, nextOld_fin l o (by omega)]
    exact ih _ (by omega)

/-- Below the bound the new-side counter after the lines `pre` is the number the
specification describes. -/
theorem foldl_nextNew_eq_specNew (pre : List Str) (h : headerBound pre + pre.length < 2 ^ 53) :
    pre.foldl nextNew (.fin 0) = .fin (specNew pre) := by
  rw [foldl_nextNew_fin pre 0 (by omega), foldl_exactNew_eq_specNew]

/-- Below the bound the old-side counter after the lines `pre` is the number the
specification describes. -/
theorem foldl_nextOld_eq_specOld (pre : List Str) (h : headerBound pre + pre.length < 2 ^ 53) :
    pre.foldl nextOld (.fin 0) = .fin (specOld pre) := by
  rw [foldl_nextOld_fin pre 0 (by omega), foldl_exactOld_eq_specOld]

theorem specNew_le (pre : List Str) : specNew pre ≤ headerBound pre + pre.length := by
  have := foldl_exactNew_le pre 0
  rw [foldl_exactNew_eq_specNew] at this
  omega

theorem specOld_le (pre : List Str) : specOld pre ≤ headerBound pre + pre.length := by
  have := foldl_exactOld_le pre 0
  rw [foldl_exactOld_eq_specOld] at this
  omega

theorem JsNum.fin_lt_fin {a b : Nat} : (JsNum.fin a < JsNum.fin b) ↔ a < b := Iff.rfl

/-! ## Line numbers inside a hunk -/

/-- Below the bound, a record of a run of lines without header has a line number
at least the counter the run started with and below the start plus the length. -/
theorem fin_of_mem_emitFrom_noHeader {seg : List Str} (h : ∀ x ∈ seg, hunkStart x = none)
    {n o : Nat} (hb : max n o + seg.length < 2 ^ 53) {r : LineRecord}
    (hr : r ∈ emitFrom (.fin n) (.fin o) seg) :
    ∃ k, r.line_number = .fin k ∧ (r.type = .new → n ≤ k) ∧ (r.type = .old → o ≤ k) ∧
      k < max n o + seg.length := by
  obtain ⟨pre, l, post, rfl, hmem⟩ := mem_emitFrom hr
  have hpre : ∀ x ∈ pre, hunkStart x = none := fun x hx => h x (by simp [hx])
  have h0 := headerBound_eq_zero hpre
  have hlen : (pre ++ l :: post).length = pre.length + (post.length + 1) := by simp
  rw [hlen] at hb ⊢
  rw [foldl_nextNew_fin pre n (by omega), foldl_nextOld_fin pre o (by omega),
    foldl_exactNew_noHeader pre n hpre, foldl_exactOld_noHeader pre o hpre] at hmem
  have c1 := List.countP_le_length (fun l => isAdded l || isContext l) (l := pre)
  have c2 := List.countP_le_length (fun l => isRemoved l || isContext l) (l := pre)
  rcases mem_lineRecords hmem with ⟨-, rfl⟩ | ⟨-, rfl⟩
  · exact ⟨_, rfl, fun _ => by omega, fun hty => by simp at hty, by omega⟩
  · exact ⟨_, rfl, fun hty => by simp at hty, fun _ => by omega, by omega⟩

/-- Below the bound, the line numbers of each side strictly increase between two
hunk headers. -/
theorem pairwise_emitFrom_noHeader (seg : List Str) (h : ∀ x ∈ seg, hunkStart x = none)
    (n o : Nat) (hb : max n o + seg.length < 2 ^ 53) :
    List.Pairwise (fun r r' => r.type = r'.type → r.line_number < r'.line_number)
      (emitFrom (.fin n) (.fin o) seg) := by
  induction seg generalizing n o with
  | nil => simp [emitFrom]
  | cons l seg ih =>
    have hl := h l (List.mem_cons_self _ _)
    have hlv := (hunkStartVal_eq_none_iff l).2 hl
    have hseg : ∀ x ∈ seg, hunkStart x = none := fun x hx => h x (List.mem_cons_of_mem _ hx)
    have h0 : headerBound [l] = 0 := headerBound_eq_zero (fun x hx => by
      rw [List.mem_singleton.1 hx]; exact hl)
    rw [List.length_cons] at hb
    have hn := exactNew_le l n
    have ho := exactOld_le l o
    rw [emitFrom, nextNew_fin l n (by omega), nextOld_fin l o (by omega), List.pairwise_append]
    refine ⟨?_, ih hseg _ _ (by omega), ?_⟩
    · unfold lineRecords
      split
      · simp
      · split <;> simp
    · intro r hr r' hr' hty
      obtain ⟨k, hk, hnew, hold, -⟩ := fin_of_mem_emitFrom_noHeader hseg
        (n := exactNew n l) (o := exactOld o l) (by omega) hr'
      rw [hk]
      rcases mem_lineRecords hr with ⟨ha, rfl⟩ | ⟨hrem, rfl⟩
      · have := hnew hty.symm
        simp only [exactNew, hlv, ha, Bool.true_or, if_true] at this
        exact JsNum.fin_lt_fin.2 this
      · have := hold hty.symm
        simp only [exactOld, hlv, hrem, Bool.true_or, if_true] at this
        exact JsNum.fin_lt_fin.2 this

theorem take_drop_middle {α : Type} (xs ys zs : List α) (a b : Nat) (ha : xs.length = a)
    (hb : ys.length = b) : ((xs ++ ys ++ zs).drop a).take b = ys := by
  subst ha hb
  rw [List.append_assoc, List.drop_left, List.take_left]

theorem hunkStart_eq_none_of_body {l : Str}
    (h : startsWith l ['+'] = true ∨ startsWith l ['-'] = true ∨ startsWith l [' '] = true) :
    hunkStart l = none := by
  apply hunkStart_eq_none_of_not_startsWith
  rcases h with h | h | h
  · exact not_startsWith_of_head h (by decide) ['@'] rfl
  · exact not_startsWith_of_head h (by decide) ['@'] rfl
  · exact not_startsWith_of_head h (by decide) ['@'] rfl

theorem emitCount_header_cons {hdr : Str} (h : startsWith hdr ['@', '@'] = true)
    (ls : List Str) : emitCount (hdr :: ls) = emitCount ls := by
  simp [emitCount, List.countP_cons, isAdded_false_of_at h, isRemoved_false_of_at h]

/-! ## Lines that the loop passes over -/

theorem emitFrom_remove_inert (pre : List Str) {l : Str} (post : List Str) (n o : JsNum)
    (hh : hunkStart l = none) (ha : isAdded l = false) (hr : isRemoved l = false)
    (hc : isContext l = false) :
    emitFrom n o (pre ++ l :: post) = emitFrom n o (pre ++ post) := by
  rw [emitFrom_append, emitFrom_append, emitFrom]
  simp [lineRecords, nextNew, nextOld, hh, ha, hr, hc]

theorem not_mem_of_mem_append_cons {d : Str} {pre : List Str} {l : Str} {post : List Str}
    (h : splitNL d = pre ++ l :: post) : ∀ x ∈ pre ++ post, '\n' ∉ x := by
  intro x hx
  apply not_mem_of_mem_splitNL d
  rw [h]
  rcases List.mem_append.1 hx with hx | hx
  · simp [hx]
  · simp [hx]

/-- Deleting from the text a line the loop passes over leaves the output as it is. -/
theorem parse_remove_inert {d : Str} {pre : List Str} {l : Str} {post : List Str}
    (h : splitNL d = pre ++ l :: post)
    (hh : hunkStart l = none) (ha : isAdded l = false) (hr : isRemoved l = false)
    (hc : isContext l = false) :
    parseDiffForLineNumbers (joinNL (pre ++ post)) = parseDiffForLineNumbers d := by
  rw [parse_joinNL _ (not_mem_of_mem_append_cons h), parse_eq d, h,
    emitFrom_remove_inert pre post (.fin 0) (.fin 0) hh ha hr hc]

theorem step_inert (st : ParseState) {l : Str}
    (hh : hunkStart l = none) (ha : isAdded l = false) (hr : isRemoved l = false)
    (hc : isContext l = false) : step st l = st := by
  rw [step_eq]
  simp [lineRecords, nextNew, nextOld, hh, ha, hr, hc]

theorem startsWith_three {l : Str} {a b c : Char} (h : startsWith l [a, b, c] = true) :
    ∃ t, l = a :: b :: c :: t := by
  match l with
  | [] => simp [startsWith, List.isPrefixOf] at h
  | [_] => simp [startsWith, List.isPrefixOf] at h
  | [_, _] => simp [startsWith, List.isPrefixOf] at h
  | x :: y :: z :: t =>
    simp only [startsWith, List.isPrefixOf, Bool.and_eq_true, beq_iff_eq, Bool.and_true] at h
    exact ⟨t, by rw [← h.1, ← h.2.1, ← h.2.2]⟩

theorem inert_of_triple {l : Str}
    (h : startsWith l ['+', '+', '+'] = true ∨ startsWith l ['-', '-', '-'] = true) :
    hunkStart l = none ∧ isAdded l = false ∧ isRemoved l = false ∧ isContext l = false := by
  rcases h with h | h
  · obtain ⟨t, rfl⟩ := startsWith_three h
    refine ⟨hunkStart_eq_none_of_not_startsWith ?_, ?_, ?_, ?_⟩ <;>
      simp [isAdded, isRemoved, isContext, startsWith, List.isPrefixOf]
  · obtain ⟨t, rfl⟩ := startsWith_three h
    refine ⟨hunkStart_eq_none_of_not_startsWith ?_, ?_, ?_, ?_⟩ <;>
      simp [isAdded, isRemoved, isContext, startsWith, List.isPrefixOf]

theorem emitFrom_eq_nil (ls : List Str) (n o : JsNum)
    (h : ∀ l ∈ ls, isAdded l = false ∧ isRemoved l = false) : emitFrom n o ls = [] := by
  induction ls generalizing n o with
  | nil => rfl
  | cons l ls ih =>
    have hl := h l (List.mem_cons_self _ _)
    rw [emitFrom, ih _ _ (fun x hx => h x (List.mem_cons_of_mem _ hx))]
    simp [lineRecords, hl.1, hl.2]

theorem map_lineRecords (n o : JsNum) (l : Str) :
    (lineRecords n o l).map (fun r => (r.type, r.content)) = (specPair l).toList := by
  unfold lineRecords specPair
  by_cases ha : isAdded l = true
  · have ha' := ha
    simp only [isAdded] at ha'
    simp [ha, ha']
  · have ha0 : isAdded l = false := by simpa using ha
    have ha' := ha0
    simp only [isAdded] at ha'
    by_cases hr : isRemoved l = true
    · have hr' := hr
      simp only [isRemoved] at hr'
      simp [ha0, ha', hr, hr']
    · have hr0 : isRemoved l = false := by simpa using hr
      have hr' := hr0
      simp only [isRemoved] at hr'
      simp [ha0, ha', hr0, hr']

theorem map_emitFrom (ls : List Str) (n o : JsNum) :
    (emitFrom n o ls).map (fun r => (r.type, r.content)) = ls.filterMap specPair := by
  induction ls generalizing n o with
  | nil => rfl
  | cons l ls ih =>
    rw [emitFrom, List.map_append, ih, map_lineRecords, List.filterMap_cons]
    cases specPair l <;> simp

/-- Every record is a line of the input without its marker. -/
theorem line_of_mem_parse {d : Str} {r : LineRecord} (h : r ∈ parseDiffForLineNumbers d) :
    marker r.type :: r.content ∈ splitNL d ∧
      ((r.type = .new ∧ isAdded (marker r.type :: r.content) = true) ∨
       (r.type = .old ∧ isRemoved (marker r.type :: r.content) = true)) := by
  rw [parse_eq] at h
  obtain ⟨pre, l, post, hsplit, hmem⟩ := mem_emitFrom h
  rcases mem_lineRecords hmem with ⟨ha, rfl⟩ | ⟨hr, rfl⟩
  · have hl : marker LineType.new :: l.drop 1 = l := (isAdded_cons ha).symm
    refine ⟨?_, Or.inl ⟨rfl, ?_⟩⟩
    · show marker LineType.new :: l.drop 1 ∈ splitNL d
      rw [hl, hsplit]; simp
    · show isAdded (marker LineType.new :: l.drop 1) = true
      rw [hl]; exact ha
  · have hl : marker LineType.old :: l.drop 1 = l := (isRemoved_cons hr).symm
    refine ⟨?_, Or.inr ⟨rfl, ?_⟩⟩
    · show marker LineType.old :: l.drop 1 ∈ splitNL d
      rw [hl, hsplit]; simp
    · show isRemoved (marker LineType.old :: l.drop 1) = true
      rw [hl]; exact hr

/-! ## The mapper loop -/

theorem mapperLoop_ok (cs : List Change) (acc : List FileResult)
    (h : ∀ c ∈ cs, c.diff ≠ none) :
    mapperLoop cs acc = .ok (acc ++ cs.map fun c =>
      { file := c.new_path,
        commentable_lines := parseDiffForLineNumbers (c.diff.getD []) }) := by
  induction cs generalizing acc with
  | nil => simp [mapperLoop]
  | cons c cs ih =>
    have hc := h c (List.mem_cons_self _ _)
    cases hd : c.diff with
    | none => exact absurd hd hc
    | some s =>
      rw [mapperLoop, hd]
      simp only [callParseDiff]
      rw [ih _ (fun x hx => h x (List.mem_cons_of_mem _ hx))]
      simp [hd]

theorem mapperLoop_error (pre : List Change) (c : Change) (post : List Change)
    (acc : List FileResult) (hpre : ∀ x ∈ pre, x.diff ≠ none) (hc : c.diff = none) :
    mapperLoop (pre ++ c :: post) acc = .error .typeError := by
  induction pre generalizing acc with
  | nil => simp [mapperLoop, hc, callParseDiff]
  | cons x pre ih =>
    have hx := hpre x (List.mem_cons_self _ _)
    cases hd : x.diff with
    | none => exact absurd hd hx
    | some s =>
      rw [List.cons_append, mapperLoop, hd]
      simp only [callParseDiff]
      exact ih _ (fun y hy => hpre y (List.mem_cons_of_mem _ hy))

theorem map_marker_lineRecords (n o : JsNum) (l : Str) :
    (lineRecords n o l).map (fun r => marker r.type :: r.content) =
      if isAdded l || isRemoved l then [l] else [] := by
  unfold lineRecords
  by_cases ha : isAdded l = true
  · have hl : '+' :: l.tail = l := by rw [← List.drop_one]; exact (isAdded_cons ha).symm
    simp [ha, marker, hl]
  · have ha0 : isAdded l = false := by simpa using ha
    by_cases hr : isRemoved l = true
    · have hl : '-' :: l.tail = l := by rw [← List.drop_one]; exact (isRemoved_cons hr).symm
      simp [ha0, hr, marker, hl]
    · have hr0 : isRemoved l = false := by simpa using hr
      simp [ha0, hr0]

theorem map_marker_emitFrom (ls : List Str) (n o : JsNum) :
    (emitFrom n o ls).map (fun r => marker r.type :: r.content) =
      ls.filter (fun l => isAdded l || isRemoved l) := by
  induction ls generalizing n o with
  | nil => rfl
  | cons l ls ih =>
    rw [emitFrom, List.map_append, ih, map_marker_lineRecords, List.filter_cons]
    split <;> simp

/-! ## Shifting a hunk by one line -/

theorem lineRecords_succ (n o : Nat) (l : Str) :
    lineRecords (.fin (n + 1)) (.fin (o + 1)) l = (lineRecords (.fin n) (.fin o) l).map bump := by
  unfold lineRecords
  split
  · simp [bump, JsNum.succ]
  · split <;> simp [bump, JsNum.succ]

/-- Below the bound, starting a run of lines without header with both counters
one higher raises every line number of the run by exactly one. -/
theorem emitFrom_succ_noHeader (seg : List Str) (h : ∀ x ∈ seg, hunkStart x = none)
    (n o : Nat) (hb : max n o + seg.length + 1 < 2 ^ 53) :
    emitFrom (.fin (n + 1)) (.fin (o + 1)) seg = (emitFrom (.fin n) (.fin o) seg).map bump := by
  induction seg generalizing n o with
  | nil => rfl
  | cons l seg ih =>
    have hl := h l (List.mem_cons_self _ _)
    have hlv := (hunkStartVal_eq_none_iff l).2 hl
    have hseg : ∀ x ∈ seg, hunkStart x = none := fun x hx => h x (List.mem_cons_of_mem _ hx)
    have h0 : headerBound [l] = 0 := headerBound_eq_zero (fun x hx => by
      rw [List.mem_singleton.1 hx]; exact hl)
    rw [List.length_cons] at hb
    have hn := exactNew_le l n
    have ho := exactOld_le l o
    have hn1 : exactNew (n + 1) l = exactNew n l + 1 := by
      simp only [exactNew, hlv]; split <;> rfl
    have ho1 : exactOld (o + 1) l = exactOld o l + 1 := by
      simp only [exactOld, hlv]; split <;> rfl
    rw [emitFrom, emitFrom, lineRecords_succ, nextNew_fin l (n + 1) (by omega),
      nextOld_fin l (o + 1) (by omega), nextNew_fin l n (by omega), nextOld_fin l o (by omega),
      hn1, ho1, ih hseg _ _ (by omega), List.map_append]

theorem emitFrom_of_header_first (rest : List Str)
    (h : rest = [] ∨ ∃ hd tl, rest = hd :: tl ∧ (hunkStart hd).isSome = true)
    (n o n' o' : JsNum) : emitFrom n o rest = emitFrom n' o' rest := by
  rcases h with rfl | ⟨hd, tl, rfl, hs⟩
  · rfl
  · obtain ⟨s, hs'⟩ := Option.isSome_iff_exists.1 hs
    have hat : startsWith hd ['@', '@'] = true := by
      cases hm : matchHeader hd with
      | none => simp [hunkStart, hm] at hs'
      | some g => exact matchHeader_startsWith hm
    simp [emitFrom, lineRecords, nextNew, nextOld, hs', isAdded_false_of_at hat,
      isRemoved_false_of_at hat]

theorem append_map_middle {α : Type} (xs ys zs : List α) (f : α → α) (a b : Nat)
    (ha : xs.length = a) (hb : ys.length = b) :
    xs ++ ys.map f ++ zs =
      (xs ++ ys ++ zs).take a ++ (((xs ++ ys ++ zs).drop a).take b).map f ++
        (xs ++ ys ++ zs).drop (a + b) := by
  rw [take_drop_middle xs ys zs a b ha hb]
  subst ha hb
  have h1 : (xs ++ ys ++ zs).take xs.length = xs := by
    rw [List.append_assoc]; exact List.take_left _ _
  have h2 : (xs ++ ys ++ zs).drop (xs.length + ys.length) = zs := by
    rw [← List.length_append]; exact List.drop_left _ _
  rw [h1, h2]

/-! ## The header pattern on a well-formed header -/

theorem reDigitsStar_append {α : Type} (k : Str → Str → Option α) (ds : Str)
    (hds : ∀ c ∈ ds, c.isDigit = true) (r : Str)
    (hr : r = [] ∨ ∃ c t, r = c :: t ∧ c.isDigit = false) (v : α) (acc : Str)
    (hk : k (acc ++ ds) r = some v) : reDigitsStar k acc (ds ++ r) = some v := by
  induction ds generalizing acc with
  | nil =>
    rcases hr with rfl | ⟨c, t, rfl, hc⟩
    · simpa [reDigitsStar] using hk
    · simpa [reDigitsStar, hc] using hk
  | cons x ds ih =>
    have hx := hds x (List.mem_cons_self _ _)
    have hrec := ih (fun c hc => hds c (List.mem_cons_of_mem _ hc)) (acc ++ [x])
      (by simpa using hk)
    simp [reDigitsStar, hx, hrec]

theorem reDigitsPlus_append {α : Type} (k : Str → Str → Option α) (ds : Str) (hne : ds ≠ [])
    (hds : ∀ c ∈ ds, c.isDigit = true) (r : Str)
    (hr : r = [] ∨ ∃ c t, r = c :: t ∧ c.isDigit = false) (v : α)
    (hk : k ds r = some v) : reDigitsPlus k (ds ++ r) = some v := by
  cases ds with
  | nil => exact absurd rfl hne
  | cons x ds =>
    have hx := hds x (List.mem_cons_self _ _)
    simp only [List.cons_append, reDigitsPlus, hx, if_true]
    exact reDigitsStar_append k ds (fun c hc => hds c (List.mem_cons_of_mem _ hc)) r hr v [x]
      (by simpa using hk)

/-- The pattern on `,count` (or nothing) followed by text that begins with a space. -/
theorem reOptComma_countPart {α : Type} (k : Str → Option α) (m : Option Str)
    (hm : ∀ s, m = some s → ∀ c ∈ s, c.isDigit = true) (r : Str) (v : α)
    (hk : ∀ ds, (∀ c ∈ ds, c.isDigit = true) →
      reDigitsStar (fun _ s => k s) [] (ds ++ ' ' :: r) = some v) :
    reOptComma (reDigitsStar (fun _ s => k s) []) (countPart m ++ ' ' :: r) = some v := by
  cases m with
  | none =>
    have := hk [] (by simp)
    simpa [countPart, reOptComma] using this
  | some s =>
    have := hk s (hm s rfl)
    simp [countPart, reOptComma, this]

theorem matchHeader_headerLine (a b : Str) (m n : Option Str) (t : Str)
    (ha : a ≠ []) (hb : b ≠ []) (hda : ∀ c ∈ a, c.isDigit = true)
    (hdb : ∀ c ∈ b, c.isDigit = true)
    (hdm : ∀ s, m = some s → ∀ c ∈ s, c.isDigit = true)
    (hdn : ∀ s, n = some s → ∀ c ∈ s, c.isDigit = true) :
    matchHeader (headerLine a m b n t) = some (a, b) := by
  have hsp : ∀ (r : Str), (countPart none ++ ' ' :: r = [] ∨
      ∃ c t', countPart none ++ ' ' :: r = c :: t' ∧ c.isDigit = false) := fun r =>
    Or.inr ⟨' ', r, rfl, by decide⟩
  have hcp : ∀ (x : Option Str) (r : Str), (countPart x ++ ' ' :: r = [] ∨
      ∃ c t', countPart x ++ ' ' :: r = c :: t' ∧ c.isDigit = false) := by
    intro x r
    cases x with
    | none => exact hsp r
    | some s => exact Or.inr ⟨',', s ++ ' ' :: r, rfl, by decide⟩
  have hspace : ∀ (r : Str), (' ' :: r = [] ∨ ∃ c t', ' ' :: r = c :: t' ∧ c.isDigit = false) :=
    fun r => Or.inr ⟨' ', r, rfl, by decide⟩
  -- the tail of the pattern, after the second group
  have h3 : reOptComma (reDigitsStar (fun _ s =>
        reLit [' ', '@', '@'] (fun _ => some (a, b)) s) [])
      (countPart n ++ ' ' :: ('@' :: '@' :: t)) = some (a, b) := by
    apply reOptComma_countPart (fun s => reLit [' ', '@', '@'] (fun _ => some (a, b)) s) n hdn
    intro ds hds
    apply reDigitsStar_append _ ds hds _ (hspace _)
    simp [reLit, List.isPrefixOf]
  -- the second group
  have h2 : reLit [' ', '+'] (reDigitsPlus fun g2 =>
        reOptComma (reDigitsStar (fun _ =>
          reLit [' ', '@', '@'] (fun _ => some (a, g2))) []))
      (' ' :: '+' :: (b ++ (countPart n ++ ' ' :: ('@' :: '@' :: t)))) = some (a, b) := by
    simp only [reLit, List.isPrefixOf, beq_self_eq_true, Bool.and_self, if_true,
      List.length_cons, List.length_nil, List.drop_succ_cons, List.drop_zero]
    exact reDigitsPlus_append _ b hb hdb _ (hcp n _) _ h3
  -- the first group and the first count
  have h1 : reOptComma (reDigitsStar (fun _ s =>
        reLit [' ', '+'] (reDigitsPlus fun g2 =>
          reOptComma (reDigitsStar (fun _ =>
            reLit [' ', '@', '@'] (fun _ => some (a, g2))) [])) s) [])
      (countPart m ++ ' ' :: ('+' :: (b ++ (countPart n ++ ' ' :: ('@' :: '@' :: t))))) =
      some (a, b) := by
    apply reOptComma_countPart (fun s => reLit [' ', '+'] (reDigitsPlus fun g2 =>
          reOptComma (reDigitsStar (fun _ =>
            reLit [' ', '@', '@'] (fun _ => some (a, g2))) [])) s) m hdm
    intro ds hds
    exact reDigitsStar_append _ ds hds _ (hspace _) _ _ h2
  have hline : headerLine a m b n t = '@' :: '@' :: ' ' :: '-' ::
      (a ++ (countPart m ++ ' ' :: ('+' :: (b ++ (countPart n ++ ' ' :: ('@' :: '@' :: t)))))) := by
    simp [headerLine, List.append_assoc]
  rw [hline]
  unfold matchHeader
  simp only [reLit, List.isPrefixOf, beq_self_eq_true, Bool.and_self, if_true,
    List.length_cons, List.length_nil, List.drop_succ_cons, List.drop_zero]
  exact reDigitsPlus_append _ a ha hda _ (hcp m _) _ h1

theorem not_newline_of_isDigit {c : Char} (h : c.isDigit = true) : c ≠ '\n' := by
  rintro rfl
  exact absurd h (by decide)

theorem not_mem_headerLine_bare (a b : Str) (hda : ∀ c ∈ a, c.isDigit = true)
    (hdb : ∀ c ∈ b, c.isDigit = true) : '\n' ∉ headerLine a none b none [] := by
  intro h
  simp only [headerLine, countPart, List.append_nil, List.mem_append, List.mem_cons,
    List.mem_singleton, List.not_mem_nil, or_false] at h
  rcases h with ((((h | h | h | h) | h) | (h | h)) | h) | (h | h | h)
  all_goals first
    | exact absurd h (by decide)
    | exact not_newline_of_isDigit (hda _ h) rfl
    | exact not_newline_of_isDigit (hdb _ h) rfl

theorem emitFrom_replace_header (pre : List Str) {l l' : Str} (post : List Str) (n o : JsNum)
    (s : JsNum × JsNum) (hl : hunkStart l = some s) (hl' : hunkStart l' = some s)
    (hat : startsWith l ['@', '@'] = true) (hat' : startsWith l' ['@', '@'] = true) :
    emitFrom n o (pre ++ l :: post) = emitFrom n o (pre ++ l' :: post) := by
  rw [emitFrom_append, emitFrom_append, emitFrom, emitFrom]
  simp [lineRecords, nextNew, nextOld, hl, hl', isAdded_false_of_at hat,
    isRemoved_false_of_at hat, isAdded_false_of_at hat', isRemoved_false_of_at hat']

/-! ## Two texts joined by a newline -/

theorem splitNL_append_newline (d1 d2 : Str) :
    splitNL (d1 ++ '\n' :: d2) = splitNL d1 ++ splitNL d2 := by
  induction d1 with
  | nil => simp [splitNL, List.splitOn]
  | cons c d1 ih =>
    simp only [splitNL, List.splitOn, List.cons_append, List.splitOnP_cons] at ih ⊢
    by_cases hc : (c == '\n') = true
    · simp [hc, ih]
    · simp only [hc, if_false]
      rw [ih]
      cases hs : List.splitOnP (fun x => x == '\n') d1 with
      | nil => exact absurd hs (List.splitOnP_ne_nil _ _)
      | cons hd tl => rfl

theorem bound_of_append (pre rest : List Str)
    (h : headerBound (pre ++ rest) + (pre ++ rest).length < 2 ^ 53) :
    headerBound pre + pre.length + rest.length < 2 ^ 53 := by
  have h1 := headerBound_append_le pre rest
  rw [List.length_append] at h
  omega

/-! ## Properties of the hunk parser -/

/-- C1, as the code has it: in a single-hunk diff whose first line matches the
header pattern with groups `ga` (old start) and `gb` (new start) and whose body
lines each begin with `+`, `-` or a space, and in which the larger start plus the
number of body lines is below `2^53`, every body line that begins with `+` but
not `+++` gets a record of type `new` whose line number is the new start plus
the number of earlier body lines that are added (begin with `+`, not `+++`) or
begin with a space; every body line that begins with `-` but not `---` gets a
record of type `old` whose line number is the old start plus the number of
earlier body lines that are removed (begin with `-`, not `---`) or begin with a
space.  The record is the one at position `emitCount pre` of the output, and
its content is the line without its marker.  The text may end with a newline. -/
theorem c1_single_hunk_line_numbers (d hdr : Str) (body : List Str) (ga gb : Str)
    (hd : splitNL d = hdr :: body ∨ splitNL d = hdr :: (body ++ [[]]))
    (hm : matchHeader hdr = some (ga, gb))
    (hb : ∀ l ∈ body,
      startsWith l ['+'] = true ∨ startsWith l ['-'] = true ∨ startsWith l [' '] = true)
    (hsafe : max (decimalValue ga) (decimalValue gb) + body.length < 2 ^ 53)
    (pre : List Str) (l : Str) (post : List Str) (hl : body = pre ++ l :: post) :
    (isAdded l = true →
      (parseDiffForLineNumbers d)[emitCount pre]? =
        some { type := .new,
               line_number :=
                 .fin (decimalValue gb + pre.countP (fun x => isAdded x || isContext x)),
               content := l.drop 1 }) ∧
    (isRemoved l = true →
      (parseDiffForLineNumbers d)[emitCount pre]? =
        some { type := .old,
               line_number :=
                 .fin (decimalValue ga + pre.countP (fun x => isRemoved x || isContext x)),
               content := l.drop 1 }) := by
  have hat := matchHeader_startsWith hm
  have hpre : ∀ x ∈ pre, hunkStart x = none := fun x hx =>
    hunkStart_eq_none_of_body (hb x (by rw [hl]; simp [hx]))
  have hhs : hunkStartVal hdr = some (decimalValue ga, decimalValue gb) := by
    simp [hunkStartVal, hm]
  have key : ∃ tl, splitNL d = (hdr :: pre) ++ l :: tl := by
    rcases hd with hd | hd
    · exact ⟨post, by rw [hd, hl]; simp⟩
    · exact ⟨post ++ [[]], by rw [hd, hl]; simp⟩
  obtain ⟨tl, htl⟩ := key
  have hcnt : emitCount pre = emitCount (hdr :: pre) := (emitCount_header_cons hat pre).symm
  have hlen : body.length = pre.length + (post.length + 1) := by rw [hl]; simp
  have hbound : max 0 (headerBound (hdr :: pre)) + (hdr :: pre).length < 2 ^ 53 := by
    have h0 := headerBound_eq_zero hpre
    simp only [headerBound, hhs, h0, List.length_cons]
    omega
  constructor
  · intro ha
    rw [parse_eq, htl, hcnt, getElem?_emitFrom_added _ ha, foldl_nextNew_fin _ 0 hbound,
      List.foldl_cons, foldl_exactNew_noHeader pre _ hpre]
    simp [exactNew, hhs]
  · intro hr
    rw [parse_eq, htl, hcnt, getElem?_emitFrom_removed _ hr, foldl_nextOld_fin _ 0 hbound,
      List.foldl_cons, foldl_exactOld_noHeader pre _ hpre]
    simp [exactOld, hhs]

/-- C1, witness: the diff `@@ -7,2 +4,3 @@`, ` c`, `+++i;`, `+x`, `-y` with a final
newline; the added line `+x` gets new line number `4 + 1`. -/
theorem c1_single_hunk_line_numbers_witness :
    (parseDiffForLineNumbers "@@ -7,2 +4,3 @@\n c\n+++i;\n+x\n-y\n".toList)[0]? =
      some { type := .new, line_number := .fin (4 + 1), content := ['x'] } :=
  (c1_single_hunk_line_numbers "@@ -7,2 +4,3 @@\n c\n+++i;\n+x\n-y\n".toList
    "@@ -7,2 +4,3 @@".toList [" c".toList, "+++i;".toList, "+x".toList, "-y".toList]
    ['7'] ['4'] (Or.inr (by decide)) (by decide) (by decide) (by decide)
    [" c".toList, "+++i;".toList] "+x".toList ["-y".toList] (by decide)).1 (by decide)

/-- C1, as stated, fails, in two ways.  In the single-hunk diff `@@ -1 +1 @@`,
`+++i;`, `+x` every body line begins with `+`, yet the output is the one record
`{new, 1, "x"}`: the line `+++i;` has no record, and the record of `+x` has
line number `1`, not `1 + 1`.  In the single-hunk diff
`@@ -1 +9007199254740992 @@`, `+a`, `+b` both records have line number
`9007199254740992`: the `++` on the counter is lost at `2^53`. -/
theorem c1_counterexample :
    ¬ (∀ (d hdr : Str) (body : List Str) (ga gb : Str) (pre : List Str) (l : Str)
        (post : List Str),
        splitNL d = hdr :: body → matchHeader hdr = some (ga, gb) →
        (∀ x ∈ body, startsWith x ['+'] = true ∨ startsWith x ['-'] = true ∨
          startsWith x [' '] = true) →
        body = pre ++ l :: post → startsWith l ['+'] = true →
        { type := .new,
          line_number := .fin (decimalValue gb +
            pre.countP (fun x => startsWith x ['+'] || startsWith x [' '])),
          content := l.drop 1 } ∈ parseDiffForLineNumbers d) ∧
    parseDiffForLineNumbers "@@ -1 +9007199254740992 @@\n+a\n+b".toList =
      [{ type := .new, line_number := .fin 9007199254740992, content := ['a'] },
       { type := .new, line_number := .fin 9007199254740992, content := ['b'] }] := by
  refine ⟨?_, by decide⟩
  intro h
  have h1 := h "@@ -1 +1 @@\n+++i;\n+x".toList "@@ -1 +1 @@".toList
    ["+++i;".toList, "+x".toList] ['1'] ['1'] ["+++i;".toList] "+x".toList []
    (by decide) (by decide) (by decide) (by decide) (by decide)
  revert h1
  decide

/-- C2, as the code has it: for every diff text `d` in which the largest header
start plus the number of lines is below `2^53`, (1) every record of the output
comes from a line `l` of `d`, after lines `pre`: a `new` record has line number
`specNew pre`, the new start of the most recent matching hunk header in `pre`
(`0` if none) plus the number of lines since that header that are added or
context lines, and an `old` record has line number `specOld pre`, the same with
the old start and the removed or context lines; (2) conversely the record of
every added or removed line sits at position `emitCount pre` with that line
number, and the output has one record per such line; (3) among the records of a
run of lines without a matching header, the line numbers of each side strictly
increase; (4) the example of the specification yields exactly
`{new, 2, added}`, `{old, 2, removed}`. -/
theorem c2_line_numbers_follow_last_header (d : Str)
    (hsafe : headerBound (splitNL d) + (splitNL d).length < 2 ^ 53) :
    (∀ r ∈ parseDiffForLineNumbers d, ∃ pre l post, splitNL d = pre ++ l :: post ∧
      ((isAdded l = true ∧
          r = { type := .new, line_number := .fin (specNew pre), content := l.drop 1 }) ∨
       (isRemoved l = true ∧
          r = { type := .old, line_number := .fin (specOld pre), content := l.drop 1 }))) ∧
    (∀ pre l post, splitNL d = pre ++ l :: post →
      (isAdded l = true → (parseDiffForLineNumbers d)[emitCount pre]? =
          some { type := .new, line_number := .fin (specNew pre), content := l.drop 1 }) ∧
      (isRemoved l = true → (parseDiffForLineNumbers d)[emitCount pre]? =
          some { type := .old, line_number := .fin (specOld pre), content := l.drop 1 })) ∧
    (parseDiffForLineNumbers d).length = emitCount (splitNL d) ∧
    (∀ pre seg post, splitNL d = pre ++ seg ++ post → (∀ x ∈ seg, hunkStart x = none) →
      List.Pairwise (fun r r' => r.type = r'.type → r.line_number < r'.line_number)
        (((parseDiffForLineNumbers d).drop (emitCount pre)).take (emitCount seg))) ∧
    parseDiffForLineNumbers "@@ -1,2 +1,3 @@\n context\n+added\n-removed\n".toList =
      [{ type := .new, line_number := .fin 2, content := "added".toList },
       { type := .old, line_number := .fin 2, content := "removed".toList }] := by
  have hpre : ∀ pre rest, splitNL d = pre ++ rest →
      headerBound pre + pre.length + rest.length < 2 ^ 53 := by
    intro pre rest hsplit
    rw [hsplit] at hsafe
    exact bound_of_append pre rest hsafe
  refine ⟨?_, ?_, ?_, ?_, by decide⟩
  · intro r hr
    rw [parse_eq] at hr
    obtain ⟨pre, l, post, hsplit, hmem⟩ := mem_emitFrom hr
    have hb := hpre pre (l :: post) hsplit
    rw [foldl_nextNew_eq_specNew pre (by omega), foldl_nextOld_eq_specOld pre (by omega)] at hmem
    exact ⟨pre, l, post, hsplit, mem_lineRecords hmem⟩
  · intro pre l post hsplit
    have hb := hpre pre (l :: post) hsplit
    constructor
    · intro ha
      rw [parse_eq, hsplit, getElem?_emitFrom_added _ ha,
        foldl_nextNew_eq_specNew pre (by omega)]
    · intro hrem
      rw [parse_eq, hsplit, getElem?_emitFrom_removed _ hrem,
        foldl_nextOld_eq_specOld pre (by omega)]
  · rw [parse_eq, length_emitFrom]
  · intro pre seg post hsplit hseg
    have hb := hpre pre (seg ++ post) (by rw [hsplit, List.append_assoc])
    rw [List.length_append] at hb
    have hn := specNew_le pre
    have ho := specOld_le pre
    rw [parse_eq, hsplit, List.append_assoc, emitFrom_append, emitFrom_append,
      ← List.append_assoc,
      take_drop_middle _ _ _ _ _ (length_emitFrom pre _ _) (length_emitFrom seg _ _),
      foldl_nextNew_eq_specNew pre (by omega), foldl_nextOld_eq_specOld pre (by omega)]
    exact pairwise_emitFrom_noHeader seg hseg _ _ (by omega)

/-- C2, witness: in the example of the specification the line `-removed`, after
the header, one context line and one added line, has the second record, with old
line number `1 + 1`. -/
theorem c2_line_numbers_follow_last_header_witness :
    (parseDiffForLineNumbers "@@ -1,2 +1,3 @@\n context\n+added\n-removed\n".toList)[1]? =
      some { type := .old, line_number := .fin 2, content := "removed".toList } :=
  ((c2_line_numbers_follow_last_header
      "@@ -1,2 +1,3 @@\n context\n+added\n-removed\n".toList (by decide)).2.1
    ["@@ -1,2 +1,3 @@".toList, " context".toList, "+added".toList] "-removed".toList [[]]
    (by decide)).2 (by decide)

/-- C2, as stated, fails: in the diff `@@ -9007199254740992 +9007199254740992 @@`,
`+a`, `+b` the record of `+b` has line number `9007199254740992`, the same as
the record of `+a`, while the start plus the one added line before it is
`9007199254740993`; the line numbers of the hunk do not strictly increase. -/
theorem c2_counterexample :
    parseDiffForLineNumbers
        "@@ -9007199254740992 +9007199254740992 @@\n+a\n+b".toList =
      [{ type := .new, line_number := .fin 9007199254740992, content := ['a'] },
       { type := .new, line_number := .fin 9007199254740992, content := ['b'] }] ∧
    specNew ["@@ -9007199254740992 +9007199254740992 @@".toList, "+a".toList] =
      9007199254740993 ∧
    ¬ ((JsNum.fin 9007199254740992) < (JsNum.fin 9007199254740992)) := by
  refine ⟨by decide, by decide, ?_⟩
  intro h
  exact absurd (JsNum.fin_lt_fin.1 h) (by decide)

/-- C3, as the code has it: for every sequence of change entries whose diff
fields are all strings, the mapper loop returns normally with one result per
entry, and every entry whose diff is the empty string has, at its own position,
a result with its file path and an empty `commentable_lines`. -/
theorem c3_empty_diff_gives_empty_lines (cs : List Change) (h : ∀ c ∈ cs, c.diff ≠ none) :
    ∃ out, getMrCommentableLines (some cs) = .ok out ∧ out.length = cs.length ∧
      ∀ (i : Nat) (c : Change), cs[i]? = some c → c.diff = some [] →
        out[i]? = some { file := c.new_path, commentable_lines := [] } := by
  refine ⟨_, by rw [getMrCommentableLines, Option.getD_some, mapperLoop_ok cs [] h], ?_, ?_⟩
  · simp
  · intro i c hi hc
    have hp : parseDiffForLineNumbers [] = [] := by decide
    simp [hi, hc, hp]

/-- C3, witness: two changed files, the second with an empty diff. -/
theorem c3_empty_diff_gives_empty_lines_witness :
    ∃ out, getMrCommentableLines (some
        [{ new_path := "a.c".toList, diff := some "@@ -1 +1 @@\n+x".toList },
         { new_path := "b.png".toList, diff := some [] }]) = .ok out ∧
      out.length = 2 ∧
      ∀ (i : Nat) (c : Change), [({ new_path := "a.c".toList, diff := some "@@ -1 +1 @@\n+x".toList } : Change),
          { new_path := "b.png".toList, diff := some [] }][i]? = some c → c.diff = some [] →
        out[i]? = some { file := c.new_path, commentable_lines := [] } :=
  c3_empty_diff_gives_empty_lines _ (by decide)

/-- C3, as stated, fails: an entry whose diff is absent makes the whole call
raise a `TypeError`; no result comes back, neither for this entry nor for the
entry before it. -/
theorem c3_counterexample :
    getMrCommentableLines (some
        [{ new_path := "a.c".toList, diff := some "@@ -1 +1 @@\n+x".toList },
         { new_path := "b.png".toList, diff := none }]) = .error .typeError ∧
    ∀ out, getMrCommentableLines (some
        [{ new_path := "a.c".toList, diff := some "@@ -1 +1 @@\n+x".toList },
         { new_path := "b.png".toList, diff := none }]) ≠ .ok out := by
  have h : getMrCommentableLines (some
        [{ new_path := "a.c".toList, diff := some "@@ -1 +1 @@\n+x".toList },
         { new_path := "b.png".toList, diff := none }]) = .error .typeError := rfl
  refine ⟨h, ?_⟩
  intro out hout
  rw [h] at hout
  exact absurd hout (by simp)

/-- C4: for every diff text, every record is a line of the text without its
marker, and that line begins neither with `+++` nor with `---`; so no `new`
record has content beginning with `++` and no `old` record has content beginning
with `--`.  A line beginning with `+++` or `---` leaves the whole loop state
(both counters and the records) as it was, and deleting such a line from the
text leaves the output unchanged. -/
theorem c4_file_header_lines_skipped (d : Str) :
    (∀ r ∈ parseDiffForLineNumbers d,
      marker r.type :: r.content ∈ splitNL d ∧
      startsWith (marker r.type :: r.content) ['+', '+', '+'] = false ∧
      startsWith (marker r.type :: r.content) ['-', '-', '-'] = false ∧
      (r.type = .new → startsWith r.content ['+', '+'] = false) ∧
      (r.type = .old → startsWith r.content ['-', '-'] = false)) ∧
    (∀ st l, startsWith l ['+', '+', '+'] = true ∨ startsWith l ['-', '-', '-'] = true →
      step st l = st) ∧
    (∀ pre l post, splitNL d = pre ++ l :: post →
      startsWith l ['+', '+', '+'] = true ∨ startsWith l ['-', '-', '-'] = true →
      parseDiffForLineNumbers (joinNL (pre ++ post)) = parseDiffForLineNumbers d) := by
  refine ⟨?_, ?_, ?_⟩
  · intro r hr
    obtain ⟨hmem, hty⟩ := line_of_mem_parse hr
    refine ⟨hmem, ?_⟩
    rcases hty with ⟨hn, ha⟩ | ⟨ho, hrem⟩
    · rw [hn] at ha ⊢
      simp only [isAdded, marker, startsWith, List.isPrefixOf, beq_self_eq_true,
        Bool.true_and, Bool.and_eq_true, Bool.not_eq_true'] at ha
      simp [marker, startsWith, List.isPrefixOf, ha]
    · rw [ho] at hrem ⊢
      simp only [isRemoved, marker, startsWith, List.isPrefixOf, beq_self_eq_true,
        Bool.true_and, Bool.and_eq_true, Bool.not_eq_true'] at hrem
      simp [marker, startsWith, List.isPrefixOf, hrem]
  · intro st l hl
    obtain ⟨hh, ha, hr, hc⟩ := inert_of_triple hl
    exact step_inert st hh ha hr hc
  · intro pre l post hsplit hl
    obtain ⟨hh, ha, hr, hc⟩ := inert_of_triple hl
    exact parse_remove_inert hsplit hh ha hr hc

/-- C4, witness: deleting the lines `--- a/f` and `+++ b/f` in turn from a
diff with file header lines leaves the output unchanged. -/
theorem c4_file_header_lines_skipped_witness :
    parseDiffForLineNumbers
        (joinNL ["--- a/f".toList, "@@ -1 +1 @@".toList, "-x".toList, "+y".toList]) =
      parseDiffForLineNumbers "--- a/f\n+++ b/f\n@@ -1 +1 @@\n-x\n+y".toList :=
  (c4_file_header_lines_skipped "--- a/f\n+++ b/f\n@@ -1 +1 @@\n-x\n+y".toList).2.2
    ["--- a/f".toList] "+++ b/f".toList ["@@ -1 +1 @@".toList, "-x".toList, "+y".toList]
    (by decide) (Or.inl (by decide))

/-- C5: for every sequence of change entries whose diff fields are strings, the
mapper loop returns a sequence of the same length whose `i`-th result has the
`i`-th entry's `new_path` as `file` and the parser's output on the `i`-th
entry's diff as `commentable_lines`; a missing `changes` gives the empty
sequence. -/
theorem c5_mapper_preserves_order (cs : List Change) (h : ∀ c ∈ cs, c.diff ≠ none) :
    (∃ out, getMrCommentableLines (some cs) = .ok out ∧ out.length = cs.length ∧
      (∀ (i : Nat) (c : Change) (s : Str), cs[i]? = some c → c.diff = some s →
        out[i]? = some { file := c.new_path,
                         commentable_lines := parseDiffForLineNumbers s }) ∧
      out.map (fun r => r.file) = cs.map (fun c => c.new_path)) ∧
    getMrCommentableLines none = .ok [] := by
  refine ⟨⟨_, by rw [getMrCommentableLines, Option.getD_some, mapperLoop_ok cs [] h],
    ?_, ?_, ?_⟩, rfl⟩
  · simp
  · intro i c s hi hc
    simp [hi, hc]
  · simp

/-- C5, witness: two changed files, in the order given. -/
theorem c5_mapper_preserves_order_witness :
    (∃ out, getMrCommentableLines (some
        [{ new_path := "b.c".toList, diff := some "@@ -1 +3 @@\n+x".toList },
         { new_path := "a.c".toList, diff := some "@@ -5 +5 @@\n-y".toList }]) = .ok out ∧
      out.length = 2 ∧
      (∀ (i : Nat) (c : Change) (s : Str),
        [({ new_path := "b.c".toList, diff := some "@@ -1 +3 @@\n+x".toList } : Change),
         { new_path := "a.c".toList, diff := some "@@ -5 +5 @@\n-y".toList }][i]? = some c →
        c.diff = some s →
        out[i]? = some { file := c.new_path,
                         commentable_lines := parseDiffForLineNumbers s }) ∧
      out.map (fun r => r.file) = ["b.c".toList, "a.c".toList]) ∧
    getMrCommentableLines none = .ok [] :=
  c5_mapper_preserves_order
    [{ new_path := "b.c".toList, diff := some "@@ -1 +3 @@\n+x".toList },
     { new_path := "a.c".toList, diff := some "@@ -5 +5 @@\n-y".toList }] (by decide)

/-- C6: for every diff text and every line of it that begins with `@@` but does
not match the hunk header pattern, the loop keeps its whole state (records and
both counters) on that line, and deleting the line from the text leaves the
output exactly the same.  The combined-diff header `@@@ -1,2 -1,2 +1,3 @@@`
and the line `@@ garbage` are such lines. -/
theorem c6_malformed_header_ignored (d : Str) (pre : List Str) (l : Str) (post : List Str)
    (h : splitNL d = pre ++ l :: post) (hat : startsWith l ['@', '@'] = true)
    (hm : matchHeader l = none) :
    (∀ st, step st l = st) ∧
    parseDiffForLineNumbers (joinNL (pre ++ post)) = parseDiffForLineNumbers d ∧
    (startsWith "@@@ -1,2 -1,2 +1,3 @@@".toList ['@', '@'] = true ∧
      matchHeader "@@@ -1,2 -1,2 +1,3 @@@".toList = none) ∧
    (startsWith "@@ garbage".toList ['@', '@'] = true ∧
      matchHeader "@@ garbage".toList = none) := by
  have hh : hunkStart l = none := by simp [hunkStart, hm]
  refine ⟨fun st => step_inert st hh (isAdded_false_of_at hat) (isRemoved_false_of_at hat)
      (isContext_false_of_at hat),
    parse_remove_inert h hh (isAdded_false_of_at hat) (isRemoved_false_of_at hat)
      (isContext_false_of_at hat), by decide, by decide⟩

/-- C6, witness: a combined-diff header in the middle of a hunk; the records
after it keep the line numbers of the hunk before it. -/
theorem c6_malformed_header_ignored_witness :
    parseDiffForLineNumbers
        (joinNL ["@@ -3 +8 @@".toList, "+a".toList, "+b".toList]) =
      parseDiffForLineNumbers "@@ -3 +8 @@\n+a\n@@@ -1,2 -1,2 +1,3 @@@\n+b".toList ∧
    parseDiffForLineNumbers "@@ -3 +8 @@\n+a\n@@@ -1,2 -1,2 +1,3 @@@\n+b".toList =
      [{ type := .new, line_number := .fin 8, content := ['a'] },
       { type := .new, line_number := .fin 9, content := ['b'] }] :=
  ⟨(c6_malformed_header_ignored "@@ -3 +8 @@\n+a\n@@@ -1,2 -1,2 +1,3 @@@\n+b".toList
      ["@@ -3 +8 @@".toList, "+a".toList] "@@@ -1,2 -1,2 +1,3 @@@".toList ["+b".toList]
      (by decide) (by decide) (by decide)).2.1, by decide⟩

/-- C8: for every diff text, the `(type, content)` pairs of the output are, in
order, what the specification reads off the lines of the text: the lines that
begin with `+` but not `+++` give `new`, those that begin with `-` but not `---`
give `old`, the content is the line without its first character, and no other
line gives anything.  Marker and content put together give back, in order,
exactly the kept lines, and no content contains a newline. -/
theorem c8_records_are_the_marked_lines (d : Str) :
    (parseDiffForLineNumbers d).map (fun r => (r.type, r.content)) =
      (splitNL d).filterMap specPair ∧
    (parseDiffForLineNumbers d).map (fun r => marker r.type :: r.content) =
      (splitNL d).filter (fun l =>
        (startsWith l ['+'] && !startsWith l ['+', '+', '+']) ||
        (startsWith l ['-'] && !startsWith l ['-', '-', '-'])) ∧
    (∀ r ∈ parseDiffForLineNumbers d, '\n' ∉ r.content) := by
  refine ⟨by rw [parse_eq, map_emitFrom], ?_, ?_⟩
  · rw [parse_eq, map_marker_emitFrom]
    rfl
  · intro r hr hn
    exact not_mem_of_mem_splitNL d _ (line_of_mem_parse hr).1 (List.mem_cons_of_mem _ hn)

/-- C9: a diff text in which no line begins with `@@`, `+`, `-` or a space has
no records; in particular the empty text has none. -/
theorem c9_no_marked_line_no_record (d : Str)
    (h : ∀ l ∈ splitNL d, startsWith l ['@', '@'] = false ∧ startsWith l ['+'] = false ∧
      startsWith l ['-'] = false ∧ startsWith l [' '] = false) :
    parseDiffForLineNumbers d = [] ∧ parseDiffForLineNumbers [] = [] := by
  refine ⟨?_, by decide⟩
  rw [parse_eq]
  apply emitFrom_eq_nil
  intro l hl
  obtain ⟨-, hp, hm, -⟩ := h l hl
  simp [isAdded, isRemoved, hp, hm]

/-- C9, witness: the body GitLab gives for a binary file, with the marker of a
missing final newline. -/
theorem c9_no_marked_line_no_record_witness :
    parseDiffForLineNumbers
        "Binary files a/x.png and b/x.png differ\n\\ No newline at end of file\n".toList =
      [] :=
  (c9_no_marked_line_no_record
    "Binary files a/x.png and b/x.png differ\n\\ No newline at end of file\n".toList
    (by decide)).1

/-- C7, as the code has it: a line that begins with a space pushes no record and
applies `++` to both counters.  For every diff text whose lines are `pre`, then a
run `seg` without a matching header, then `rest` (empty, or beginning with a
matching header), and in which the largest header start plus the number of lines
plus one is below `2^53`, inserting a context line between `pre` and `seg`
leaves the types and contents of the records, in order, unchanged; the records
of `pre` are unchanged, each record of `seg` has its line number raised by
exactly one, and the records of `rest` are unchanged. -/
theorem c7_context_line_shifts_hunk (d : Str) (pre seg rest : List Str) (ctx : Str)
    (h : splitNL d = pre ++ seg ++ rest) (hctx : startsWith ctx [' '] = true)
    (hnl : '\n' ∉ ctx) (hseg : ∀ x ∈ seg, hunkStart x = none)
    (hrest : rest = [] ∨ ∃ hd tl, rest = hd :: tl ∧ (hunkStart hd).isSome = true)
    (hsafe : headerBound (splitNL d) + (splitNL d).length + 1 < 2 ^ 53) :
    (∀ st, step st ctx =
      { st with currentNewLine := jsInc st.currentNewLine,
                currentOldLine := jsInc st.currentOldLine }) ∧
    (parseDiffForLineNumbers (joinNL (pre ++ ctx :: (seg ++ rest)))).map
        (fun r => (r.type, r.content)) =
      (parseDiffForLineNumbers d).map (fun r => (r.type, r.content)) ∧
    parseDiffForLineNumbers (joinNL (pre ++ ctx :: (seg ++ rest))) =
      (parseDiffForLineNumbers d).take (emitCount pre) ++
        (((parseDiffForLineNumbers d).drop (emitCount pre)).take (emitCount seg)).map bump ++
        (parseDiffForLineNumbers d).drop (emitCount pre + emitCount seg) := by
  have hh : hunkStart ctx = none := hunkStart_eq_none_of_isContext hctx
  have hc : isContext ctx = true := hctx
  have ha : isAdded ctx = false := by
    cases hx : isAdded ctx with
    | false => rfl
    | true => rw [isContext_false_of_isAdded hx] at hc; exact absurd hc (by simp)
  have hr : isRemoved ctx = false := by
    cases hx : isRemoved ctx with
    | false => rfl
    | true => rw [isContext_false_of_isRemoved hx] at hc; exact absurd hc (by simp)
  have hlines : ∀ x ∈ pre ++ ctx :: (seg ++ rest), '\n' ∉ x := by
    intro x hx
    rcases List.mem_append.1 hx with hx | hx
    · exact not_mem_of_mem_splitNL d x (by rw [h]; simp [hx])
    · rcases List.mem_cons.1 hx with rfl | hx
      · exact hnl
      · exact not_mem_of_mem_splitNL d x (by
          rw [h, List.append_assoc]; exact List.mem_append_right _ hx)
  have hb : headerBound pre + pre.length + (seg ++ rest).length + 1 < 2 ^ 53 := by
    have := headerBound_append_le pre (seg ++ rest)
    rw [h, List.append_assoc, List.length_append] at hsafe
    omega
  rw [List.length_append] at hb
  have hn := specNew_le pre
  have ho := specOld_le pre
  have hN := foldl_nextNew_eq_specNew pre (by omega)
  have hO := foldl_nextOld_eq_specOld pre (by omega)
  have hout : parseDiffForLineNumbers d =
      emitFrom (.fin 0) (.fin 0) pre ++ emitFrom (.fin (specNew pre)) (.fin (specOld pre)) seg ++
        emitFrom (seg.foldl nextNew (.fin (specNew pre)))
          (seg.foldl nextOld (.fin (specOld pre))) rest := by
    rw [parse_split d pre (seg ++ rest) (by rw [h, List.append_assoc]), hN, hO,
      emitFrom_append, List.append_assoc]
  have hout' : parseDiffForLineNumbers (joinNL (pre ++ ctx :: (seg ++ rest))) =
      emitFrom (.fin 0) (.fin 0) pre ++
        (emitFrom (.fin (specNew pre)) (.fin (specOld pre)) seg).map bump ++
        emitFrom (seg.foldl nextNew (.fin (specNew pre)))
          (seg.foldl nextOld (.fin (specOld pre))) rest := by
    rw [parse_joinNL _ hlines, emitFrom_append, emitFrom, hN, hO, emitFrom_append]
    have hn1 : nextNew (.fin (specNew pre)) ctx = .fin (specNew pre + 1) := by
      simp only [nextNew, hh, hc, Bool.or_true, if_true]
      exact jsInc_fin (by omega)
    have ho1 : nextOld (.fin (specOld pre)) ctx = .fin (specOld pre + 1) := by
      simp only [nextOld, hh, hc, Bool.or_true, if_true]
      exact jsInc_fin (by omega)
    rw [hn1, ho1, emitFrom_succ_noHeader seg hseg _ _ (by omega),
      emitFrom_of_header_first rest hrest _ _ (seg.foldl nextNew (.fin (specNew pre)))
        (seg.foldl nextOld (.fin (specOld pre)))]
    simp [lineRecords, ha, hr]
  refine ⟨?_, ?_, ?_⟩
  · intro st
    rw [step_eq]
    simp [lineRecords, nextNew, nextOld, hh, ha, hr, hc]
  · rw [parse_joinNL _ hlines, parse_eq d, map_emitFrom, map_emitFrom, h]
    have hsp : specPair ctx = none := by
      have ha' := ha
      have hr' := hr
      simp only [isAdded] at ha'
      simp only [isRemoved] at hr'
      simp [specPair, ha', hr']
    simp [List.filterMap_append, List.filterMap_cons, hsp]
  · rw [hout', hout]
    have e1 := length_emitFrom pre (.fin 0) (.fin 0)
    have e2 := length_emitFrom seg (.fin (specNew pre)) (.fin (specOld pre))
    exact append_map_middle _ _ _ bump _ _ e1 e2

/-- C7, witness: a context line put right after the header of the first hunk
raises the line numbers of that hunk by one and leaves the second hunk alone. -/
theorem c7_context_line_shifts_hunk_witness :
    parseDiffForLineNumbers "@@ -1 +1 @@\n c\n+a\n-b\n@@ -9 +9 @@\n+z".toList =
      [{ type := .new, line_number := .fin (1 + 1), content := ['a'] },
       { type := .old, line_number := .fin (1 + 1), content := ['b'] },
       { type := .new, line_number := .fin 9, content := ['z'] }] := by
  have h := (c7_context_line_shifts_hunk "@@ -1 +1 @@\n+a\n-b\n@@ -9 +9 @@\n+z".toList
    ["@@ -1 +1 @@".toList] ["+a".toList, "-b".toList] ["@@ -9 +9 @@".toList, "+z".toList]
    " c".toList (by decide) (by decide) (by decide) (by decide)
    (Or.inr ⟨"@@ -9 +9 @@".toList, ["+z".toList], rfl, by decide⟩) (by decide)).2.2
  have e : joinNL (["@@ -1 +1 @@".toList] ++ " c".toList ::
      (["+a".toList, "-b".toList] ++ ["@@ -9 +9 @@".toList, "+z".toList])) =
      "@@ -1 +1 @@\n c\n+a\n-b\n@@ -9 +9 @@\n+z".toList := by decide
  rw [e] at h
  rw [h]
  decide

/-- C7, as stated, fails: after the header
`@@ -9007199254740992 +9007199254740992 @@` the line `+a` has line number
`9007199254740992`, and with a context line inserted before it it still has
`9007199254740992`, not one more: the `++` on the counter is lost at `2^53`. -/
theorem c7_counterexample :
    parseDiffForLineNumbers "@@ -9007199254740992 +9007199254740992 @@\n+a".toList =
      [{ type := .new, line_number := .fin 9007199254740992, content := ['a'] }] ∧
    parseDiffForLineNumbers "@@ -9007199254740992 +9007199254740992 @@\n c\n+a".toList =
      [{ type := .new, line_number := .fin 9007199254740992, content := ['a'] }] ∧
    parseDiffForLineNumbers "@@ -9007199254740992 +9007199254740992 @@\n c\n+a".toList ≠
      (parseDiffForLineNumbers
        "@@ -9007199254740992 +9007199254740992 @@\n+a".toList).map bump := by
  decide

/-- C10, as the code has it: for all non-empty digit strings `a` and `b`, all
digit strings `m` and `n` (each `,count` part present or left out) and every
trailing text `t`, the header line `@@ -a,m +b,n @@t` begins with `@@` and
matches the pattern with groups `a` and `b`; on it the loop sets the old counter
to `parseInt(a, 10)` and the new counter to `parseInt(b, 10)` and pushes nothing,
and these are the values of `a` and `b` whenever those are below `2^53`; and in
every diff text that has this header as a line, replacing it by `@@ -a +b @@`
leaves the output unchanged. -/
theorem c10_header_counts_ignored (a b : Str) (m n : Option Str) (t : Str)
    (ha : a ≠ []) (hb : b ≠ []) (hda : ∀ c ∈ a, c.isDigit = true)
    (hdb : ∀ c ∈ b, c.isDigit = true)
    (hdm : ∀ s, m = some s → ∀ c ∈ s, c.isDigit = true)
    (hdn : ∀ s, n = some s → ∀ c ∈ s, c.isDigit = true) :
    startsWith (headerLine a m b n t) ['@', '@'] = true ∧
    matchHeader (headerLine a m b n t) = some (a, b) ∧
    (∀ st, step st (headerLine a m b n t) =
      { st with currentOldLine := parseInt10 a, currentNewLine := parseInt10 b }) ∧
    (decimalValue a < 2 ^ 53 → parseInt10 a = .fin (decimalValue a)) ∧
    (decimalValue b < 2 ^ 53 → parseInt10 b = .fin (decimalValue b)) ∧
    (∀ d pre post, splitNL d = pre ++ headerLine a m b n t :: post →
      parseDiffForLineNumbers (joinNL (pre ++ headerLine a none b none [] :: post)) =
        parseDiffForLineNumbers d) := by
  have hm := matchHeader_headerLine a b m n t ha hb hda hdb hdm hdn
  have hm' := matchHeader_headerLine a b none none [] ha hb hda hdb
    (fun s hs => by simp at hs) (fun s hs => by simp at hs)
  have hat := matchHeader_startsWith hm
  have hat' := matchHeader_startsWith hm'
  refine ⟨hat, hm, ?_, fun h => toDouble_of_lt h, fun h => toDouble_of_lt h, ?_⟩
  · intro st
    simp [step, hat, hm]
  · intro d pre post hsplit
    have hlines : ∀ x ∈ pre ++ headerLine a none b none [] :: post, '\n' ∉ x := by
      intro x hx
      rcases List.mem_append.1 hx with hx | hx
      · exact not_mem_of_mem_splitNL d x (by rw [hsplit]; simp [hx])
      · rcases List.mem_cons.1 hx with rfl | hx
        · exact not_mem_headerLine_bare a b hda hdb
        · exact not_mem_of_mem_splitNL d x (by rw [hsplit]; simp [hx])
    rw [parse_joinNL _ hlines, parse_eq d, hsplit]
    exact emitFrom_replace_header pre post (.fin 0) (.fin 0) (parseInt10 a, parseInt10 b)
      (by simp [hunkStart, hm']) (by simp [hunkStart, hm]) hat' hat

/-- C10, witness: the header `@@ -12,7 +345 @@ def f():` has groups `12` and
`345`, and the counters are set to the numbers 12 and 345. -/
theorem c10_header_counts_ignored_witness :
    matchHeader "@@ -12,7 +345 @@ def f():".toList = some ("12".toList, "345".toList) ∧
    parseInt10 "12".toList = .fin 12 ∧ parseInt10 "345".toList = .fin 345 :=
  ⟨(c10_header_counts_ignored "12".toList "345".toList (some ['7']) none " def f():".toList
      (by decide) (by decide) (by decide) (by decide) (by decide) (by decide)).2.1,
    by decide, by decide⟩

/-- C10, as stated, fails: on the header `@@ -9007199254740993 +1 @@` the old
counter is set to `9007199254740992`, the double nearest to the value
`9007199254740993` of the first group. -/
theorem c10_counterexample :
    matchHeader "@@ -9007199254740993 +1 @@".toList =
      some ("9007199254740993".toList, ['1']) ∧
    decimalValue "9007199254740993".toList = 9007199254740993 ∧
    (step initState "@@ -9007199254740993 +1 @@".toList).currentOldLine =
      .fin 9007199254740992 := by
  decide

/-- C11: when the merge request details carry `diff_refs`, `addMrInlineComment`
sends exactly one POST request, whose position has the `base_sha`, `start_sha`
and `head_sha` of `diff_refs`, `position_type` `text` and `new_path` the given
file path; with line type `new`, given or by default, it has `new_line` the given
line number and neither `old_line` nor `old_path`; with line type `old` it has
`old_line` the given line number, `old_path` the file path and no `new_line`.
When `diff_refs` is missing the run fails with the message
`Could not get diff_refs from merge request` and sends no request. -/
theorem c11_inline_comment_position (gitlabUrl encodedPath : Str) (respond : PostCall → Str)
    (mrIid : Str) (filePath : Str) (lineNumber : Int) (commentBody : Str) :
    (∀ (refs : DiffRefs) (lineType : Option Str),
      lineType = none ∨ lineType = some "new".toList →
      (addMrInlineComment gitlabUrl encodedPath { diff_refs := some refs } respond mrIid
          filePath lineNumber commentBody lineType).posted =
        [{ url := discussionsUrl gitlabUrl encodedPath mrIid,
           body := commentBody,
           position :=
             { base_sha := refs.base_sha, start_sha := refs.start_sha,
               head_sha := refs.head_sha, position_type := "text".toList,
               new_path := filePath, new_line := some lineNumber,
               old_line := none, old_path := none } }]) ∧
    (∀ (refs : DiffRefs),
      (addMrInlineComment gitlabUrl encodedPath { diff_refs := some refs } respond mrIid
          filePath lineNumber commentBody (some "old".toList)).posted =
        [{ url := discussionsUrl gitlabUrl encodedPath mrIid,
           body := commentBody,
           position :=
             { base_sha := refs.base_sha, start_sha := refs.start_sha,
               head_sha := refs.head_sha, position_type := "text".toList,
               new_path := filePath, new_line := none,
               old_line := some lineNumber, old_path := some filePath } }]) ∧
    (∀ (refs : DiffRefs) (lineType : Option Str), ∃ call,
      (addMrInlineComment gitlabUrl encodedPath { diff_refs := some refs } respond mrIid
          filePath lineNumber commentBody lineType).posted = [call] ∧
      (addMrInlineComment gitlabUrl encodedPath { diff_refs := some refs } respond mrIid
          filePath lineNumber commentBody lineType).result = .ok (respond call)) ∧
    (∀ (lineType : Option Str),
      (addMrInlineComment gitlabUrl encodedPath { diff_refs := none } respond mrIid
          filePath lineNumber commentBody lineType).result =
        .error "Could not get diff_refs from merge request".toList ∧
      (addMrInlineComment gitlabUrl encodedPath { diff_refs := none } respond mrIid
          filePath lineNumber commentBody lineType).posted = []) := by
  refine ⟨?_, ?_, ?_, ?_⟩
  · intro refs lineType h
    rcases h with rfl | rfl
    · simp [addMrInlineComment]
    · simp [addMrInlineComment]
  · intro refs
    have hne : ("old".toList = "new".toList) = False := by decide
    simp [addMrInlineComment, hne]
  · intro refs lineType
    exact ⟨_, rfl, rfl⟩
  · intro lineType
    exact ⟨rfl, rfl⟩

/-- C11, witness: a comment on new line 12 of `a.c`, the line type left out. -/
theorem c11_inline_comment_position_witness :
    ((addMrInlineComment "https://gitlab.example.com".toList "g%2Fp".toList
        { diff_refs := some { base_sha := "b0".toList, start_sha := "s0".toList,
                              head_sha := "h0".toList } }
        (fun _ => "ok".toList) (['7']) "a.c".toList 12 "nit".toList none).posted.map
      fun c => (c.position.new_line, c.position.old_line, c.position.old_path)) =
      [(some 12, none, none)] := by
  have h := (c11_inline_comment_position "https://gitlab.example.com".toList "g%2Fp".toList
    (fun _ => "ok".toList) (['7']) "a.c".toList 12 "nit".toList).1
    { base_sha := "b0".toList, start_sha := "s0".toList, head_sha := "h0".toList } none
    (Or.inl rfl)
  rw [h]
  rfl

/-- C12: for every text `d1` and every text `d2` whose first line matches the
hunk header pattern, the output on `d1`, a newline, then `d2` is the output on
`d1` followed by the output on `d2`. -/
theorem c12_hunks_parsed_independently (d1 d2 hdr : Str) (rest : List Str) (g : Str × Str)
    (h : splitNL d2 = hdr :: rest) (hm : matchHeader hdr = some g) :
    parseDiffForLineNumbers (d1 ++ ['\n'] ++ d2) =
      parseDiffForLineNumbers d1 ++ parseDiffForLineNumbers d2 := by
  have hcat : d1 ++ ['\n'] ++ d2 = d1 ++ '\n' :: d2 := by simp
  rw [hcat, parse_eq, parse_eq d1, parse_eq d2, splitNL_append_newline, emitFrom_append]
  congr 1
  exact emitFrom_of_header_first (splitNL d2)
    (Or.inr ⟨hdr, rest, h, by simp [hunkStart, hm]⟩) _ _ (.fin 0) (.fin 0)

/-- C12, witness: two hunks; the second starts again from its own header
although the first has left the counters at other values. -/
theorem c12_hunks_parsed_independently_witness :
    parseDiffForLineNumbers ("@@ -1 +1 @@\n+a\n c".toList ++ ['\n'] ++
        "@@ -9,2 +7 @@\n-z\n+y".toList) =
      parseDiffForLineNumbers "@@ -1 +1 @@\n+a\n c".toList ++
        parseDiffForLineNumbers "@@ -9,2 +7 @@\n-z\n+y".toList :=
  c12_hunks_parsed_independently "@@ -1 +1 @@\n+a\n c".toList
    "@@ -9,2 +7 @@\n-z\n+y".toList "@@ -9,2 +7 @@".toList ["-z".toList, "+y".toList]
    (['9'], ['7']) (by decide) (by decide)

end GitlabMcp
